import Mathlib

/-!
# Raydium CLMM data source: pool-state decoding and price derivation

A shallow embedding of `apps/lib/data_provider/sources/raydiumclmm/data_source.go`.

* `F64` is a bit-exact model of Go's `float64` (IEEE-754 binary64, round to nearest, ties
  to even). Every arithmetic operation is rounded on its own (no fused multiply-add), NaN
  payloads are not distinguished.
* `Pow` follows the portable implementation of `math.Pow` in the Go standard library
  (`math/pow.go`), with `Frexp`, `Ldexp` and `Modf` as specified there.
* `PoolState` and `RewardInfo` mirror the Go structs; `decodePoolState` reads them from a
  byte buffer the way the Borsh decoder walks a struct: fields in declaration order,
  fixed widths, little-endian.
* `calculatePrice` and `getUpdate` follow the Go functions statement by statement; the
  collaborators of `getUpdate` (base-58 parsing, the RPC fetch, the clock) are the fields
  of `World`.

The definitions come first, the theorems after them.
-/

set_option maxRecDepth 1000000
set_option exponentiation.threshold 100000

namespace Raydium

/-! ## Definitions -/

/-- A `float64` value: NaN, a signed infinity, or the finite value `(-1)^neg * m * 2^e`.
Values produced by the operations below are in canonical form (`F64.Canon`), so that two
values are equal exactly when their bit patterns are (NaN payloads apart). -/
inductive F64 where
  | nan : F64
  | inf (neg : Bool) : F64
  | fin (neg : Bool) (m : Nat) (e : Int) : F64
deriving DecidableEq, Repr

namespace F64

/-- Canonical form of a finite binary64: 53-bit significand, exponent range of the format,
and a full significand unless the value is subnormal. -/
def Canon (m : Nat) (e : Int) : Prop :=
  m < 2 ^ 53 ∧ -1074 ≤ e ∧ e ≤ 971 ∧ (2 ^ 52 ≤ m ∨ e = -1074)

/-- Binary digits of `n`, by repeated halving; the first argument bounds the number of
halvings. -/
def bitLenAux : Nat → Nat → Nat
  | 0, _ => 0
  | fuel + 1, n => if n = 0 then 0 else bitLenAux fuel (n / 2) + 1

/-- Number of binary digits of `n` (`0` for `0`). -/
def bitLen (n : Nat) : Nat := bitLenAux n n

/-- Rounding of the exact value `(-1)^neg * m * 2^e` to binary64, to nearest, ties to even,
overflowing to infinity. -/
def round (neg : Bool) (m : Nat) (e : Int) : F64 :=
  if m = 0 then fin neg 0 (-1074) else
    let t : Int := max (e + (bitLen m : Int) - 53) (-1074)
    if t ≤ e then
      if 971 < t then inf neg else fin neg (m * 2 ^ (e - t).toNat) t
    else
      let sh := (t - e).toNat
      let q := m / 2 ^ sh
      let r := m % 2 ^ sh
      let half := 2 ^ (sh - 1)
      let q1 := if half < r ∨ (r = half ∧ q % 2 = 1) then q + 1 else q
      let q2 := if q1 = 2 ^ 53 then 2 ^ 52 else q1
      let t2 := if q1 = 2 ^ 53 then t + 1 else t
      if 971 < t2 then inf neg else fin neg q2 t2

/-- Conversion `float64(n)` of an unsigned integer. -/
def ofNat (n : Nat) : F64 := round false n 0

/-- Conversion `float64(z)` of a signed integer. -/
def ofInt (z : Int) : F64 := round (decide (z < 0)) z.natAbs 0

/-- The float64 negation `-x`. -/
def neg : F64 → F64
  | nan => nan
  | inf s => inf (!s)
  | fin s m e => fin (!s) m e

/-- Go's `math.Abs`. -/
def abs : F64 → F64
  | nan => nan
  | inf _ => inf false
  | fin _ m e => fin false m e

/-- Go's `math.Signbit`. -/
def signbit : F64 → Bool
  | nan => false
  | inf s => s
  | fin s _ _ => s

/-- Go's `math.IsNaN`. -/
def isNaN : F64 → Bool
  | nan => true
  | _ => false

/-- Go's `math.IsInf(x, sign)`. -/
def isInf (x : F64) (sign : Int) : Bool :=
  match x with
  | inf s => (decide (0 ≤ sign) && !s) || (decide (sign ≤ 0) && s)
  | _ => false

/-- The signed integer `n` with `(-1)^s * m * 2^e = n * 2^b`, for `b ≤ e`. -/
def scaled (b : Int) (s : Bool) (m : Nat) (e : Int) : Int :=
  (if s then -1 else 1) * ((m * 2 ^ (e - b).toNat : Nat) : Int)

/-- The float64 product `x * y`. -/
def mul : F64 → F64 → F64
  | nan, _ => nan
  | _, nan => nan
  | inf s, inf t => inf (xor s t)
  | inf s, fin t m _ => if m = 0 then nan else inf (xor s t)
  | fin s m _, inf t => if m = 0 then nan else inf (xor s t)
  | fin s m e, fin t n f => round (xor s t) (m * n) (e + f)

/-- The float64 sum `x + y`. -/
def add : F64 → F64 → F64
  | nan, _ => nan
  | _, nan => nan
  | inf s, inf t => if s = t then inf s else nan
  | inf s, fin _ _ _ => inf s
  | fin _ _ _, inf t => inf t
  | fin s m e, fin t n f =>
    let b := min e f
    let z := scaled b s m e + scaled b t n f
    if z = 0 then fin (s && t) 0 (-1074) else round (decide (z < 0)) z.natAbs b

/-- The float64 difference `x - y`. -/
def sub (x y : F64) : F64 := add x (neg y)

/-- The float64 quotient `x / y`: the quotient of the significands is taken with 128 extra
bits and a sticky bit, then rounded once. -/
def div : F64 → F64 → F64
  | nan, _ => nan
  | _, nan => nan
  | inf _, inf _ => nan
  | inf s, fin t _ _ => inf (xor s t)
  | fin s _ _, inf t => fin (xor s t) 0 (-1074)
  | fin s m e, fin t n f =>
    if n = 0 then (if m = 0 then nan else inf (xor s t))
    else if m = 0 then fin (xor s t) 0 (-1074)
    else
      let num := m * 2 ^ 128
      let q := num / n
      let sticky := if num % n = 0 then 0 else 1
      round (xor s t) (2 * q + sticky) (e - f - 129)

/-- Go's `x < y` on float64. -/
def lt : F64 → F64 → Bool
  | nan, _ => false
  | _, nan => false
  | inf s, inf t => s && !t
  | inf s, fin _ _ _ => s
  | fin _ _ _, inf t => !t
  | fin s m e, fin t n f => decide (scaled (min e f) s m e < scaled (min e f) t n f)

/-- Go's `x == y` on float64 (`NaN` differs from everything, `-0 == +0`). -/
def eq : F64 → F64 → Bool
  | nan, _ => false
  | _, nan => false
  | inf s, inf t => s == t
  | inf _, fin _ _ _ => false
  | fin _ _ _, inf _ => false
  | fin s m e, fin t n f => decide (scaled (min e f) s m e = scaled (min e f) t n f)

/-- Go's `x <= y` on float64. -/
def le (x y : F64) : Bool := lt x y || eq x y

/-- Truncation toward zero: the conversion `int64(x)` for a finite `x` in range. -/
def toInt : F64 → Int
  | fin s m e =>
    (if s then -1 else 1) *
      (if 0 ≤ e then ((m * 2 ^ e.toNat : Nat) : Int) else ((m / 2 ^ (-e).toNat : Nat) : Int))
  | _ => 0

/-- Go's `math.Modf`: integer part and fractional part, both with the sign of `f`. -/
def modf (f : F64) : F64 × F64 :=
  match f with
  | nan => (nan, nan)
  | inf s => (inf s, nan)
  | fin s m e =>
    if m = 0 then (f, f)
    else if 0 ≤ e then (f, fin s 0 (-1074))
    else (round s (m / 2 ^ (-e).toNat * 2 ^ (-e).toNat) e, round s (m % 2 ^ (-e).toNat) e)

/-- Go's `math.Frexp`: `f = frac * 2^exp` with `1/2 ≤ |frac| < 1`. -/
def frexp (f : F64) : F64 × Int :=
  match f with
  | fin s m e =>
    if m = 0 then (f, 0) else (fin s (m * 2 ^ (53 - bitLen m)) (-53), e + bitLen m)
  | _ => (f, 0)

/-- Go's `math.Ldexp`: `frac * 2^exp`, rounded once. -/
def ldexp (frac : F64) (exp : Int) : F64 :=
  match frac with
  | fin s m e => if m = 0 then frac else round s m (e + exp)
  | _ => frac

/-- The helper `isOddInt` of `math/pow.go`. -/
def isOddInt (x : F64) : Bool :=
  if le (ofNat (2 ^ 53)) (abs x) then false
  else eq (modf x).2 (ofNat 0) && (toInt (modf x).1 % 2 == 1)

/-- The constant `0.5`. -/
def half : F64 := fin false (2 ^ 52) (-53)

/-- The exact rational value of a finite float. -/
def toRat : F64 → Option ℚ
  | fin s m e => some ((if s then -1 else 1) * (m : ℚ) * (2 : ℚ) ^ e)
  | _ => none

end F64

/-- The routines of Go's `math` package that `math.Pow` calls when the exponent is not an
integer. They are not used on the paths `calculatePrice` takes, and are kept abstract. -/
structure Libm where
  Sqrt : F64 → F64
  Exp : F64 → F64
  Log : F64 → F64

/-- The loop `for i := int64(yi); i != 0; i >>= 1` of `math.Pow`, which multiplies the
running product `a1 * 2^ae` by the repeated squares `x1 * 2^xe` of the base. The first
argument bounds the number of iterations; 64 is enough for every `int64`. -/
def powLoop : Nat → Nat → F64 → Int → F64 → Int → F64 × Int
  | 0, _, _, _, a1, ae => (a1, ae)
  | fuel + 1, i, x1, xe, a1, ae =>
    if i = 0 then (a1, ae)
    else if xe < -4096 ∨ 4096 < xe then (a1, ae + xe)
    else
      let a1n := if i % 2 = 1 then F64.mul a1 x1 else a1
      let aen := if i % 2 = 1 then ae + xe else ae
      let x2 := F64.mul x1 x1
      let xe2 := 2 * xe
      let x3 := if F64.lt x2 F64.half then F64.add x2 x2 else x2
      let xe3 := if F64.lt x2 F64.half then xe2 - 1 else xe2
      powLoop fuel (i / 2) x3 xe3 a1n aen

/-- Go's `math.Pow(x, y)` (portable implementation, `math/pow.go`). -/
def Pow (L : Libm) (x y : F64) : F64 :=
  if F64.eq y (F64.ofNat 0) || F64.eq x (F64.ofNat 1) then F64.ofNat 1
  else if F64.eq y (F64.ofNat 1) then x
  else if F64.isNaN x || F64.isNaN y then F64.nan
  else if F64.eq x (F64.ofNat 0) then
    (if F64.lt y (F64.ofNat 0) then
      (if F64.signbit x && F64.isOddInt y then F64.inf true else F64.inf false)
    else
      (if F64.signbit x && F64.isOddInt y then x else F64.ofNat 0))
  else if F64.isInf y 0 then
    (if F64.eq x (F64.neg (F64.ofNat 1)) then F64.ofNat 1
     else if (F64.lt (F64.abs x) (F64.ofNat 1)) == F64.isInf y 1 then F64.ofNat 0
     else F64.inf false)
  else if F64.isInf x 0 then
    (if F64.isInf x (-1) then
      (if F64.lt (F64.neg y) (F64.ofNat 0) then
        (if F64.isOddInt (F64.neg y) then F64.inf true else F64.inf false)
       else
        (if F64.isOddInt (F64.neg y) then F64.fin true 0 (-1074) else F64.ofNat 0))
     else if F64.lt y (F64.ofNat 0) then F64.ofNat 0
     else F64.inf false)
  else if F64.eq y F64.half then L.Sqrt x
  else if F64.eq y (F64.neg F64.half) then F64.div (F64.ofNat 1) (L.Sqrt x)
  else
    let yi0 := (F64.modf (F64.abs y)).1
    let yf0 := (F64.modf (F64.abs y)).2
    if !(F64.eq yf0 (F64.ofNat 0)) && F64.lt x (F64.ofNat 0) then F64.nan
    else if F64.le (F64.ofNat (2 ^ 63)) yi0 then
      (if F64.eq x (F64.neg (F64.ofNat 1)) then F64.ofNat 1
       else if (F64.lt (F64.abs x) (F64.ofNat 1)) == F64.lt (F64.ofNat 0) y then F64.ofNat 0
       else F64.inf false)
    else
      let adj := !(F64.eq yf0 (F64.ofNat 0)) && F64.lt F64.half yf0
      let yf := if adj then F64.sub yf0 (F64.ofNat 1) else yf0
      let yi := if adj then F64.add yi0 (F64.ofNat 1) else yi0
      let a0 := if !(F64.eq yf0 (F64.ofNat 0)) then L.Exp (F64.mul yf (L.Log x)) else F64.ofNat 1
      let fe := F64.frexp x
      let r := powLoop 64 (F64.toInt yi).toNat fe.1 fe.2 a0 0
      if F64.lt y (F64.ofNat 0) then F64.ldexp (F64.div (F64.ofNat 1) r.1) (-r.2)
      else F64.ldexp r.1 r.2

/-- A `Libm` whose routines all return NaN; used where a closed term is evaluated. -/
def Libm.none : Libm := ⟨fun _ => F64.nan, fun _ => F64.nan, fun _ => F64.nan⟩

/-- One byte of an account buffer. -/
abbrev Byte := Fin 256

/-- Go's `bin.Uint128`: two unsigned 64-bit halves. -/
structure Uint128 where
  Lo : Nat
  Hi : Nat
deriving DecidableEq, Repr

/-- Go's `solana.PublicKey`, a 32-byte array. -/
abbrev PublicKey := List Byte

/-- Go's `RewardInfo`. -/
structure RewardInfo where
  RewardState : Nat
  OpenTime : Nat
  EndTime : Nat
  LastUpdateTime : Nat
  EmissionsPerSecondX64 : Uint128
  RewardTotalEmissioned : Nat
  RewardClaimed : Nat
  TokenMint : PublicKey
  TokenVault : PublicKey
  Creator : PublicKey
  RewardGrowthGlobalX64 : Uint128
deriving DecidableEq, Repr

/-- Go's `PoolState`; arrays are lists, integers are unbounded and kept in range by the
decoder. -/
structure PoolState where
  Padding : List Byte
  Bump : Nat
  AmmConfig : PublicKey
  Creator : PublicKey
  MintA : PublicKey
  MintB : PublicKey
  VaultA : PublicKey
  VaultB : PublicKey
  ObservationId : PublicKey
  MintDecimalsA : Nat
  MintDecimalsB : Nat
  TickSpacing : Nat
  Liquidity : Uint128
  SqrtPriceX64 : Uint128
  TickCurrent : Int
  ObservationIndex : Nat
  ObservationUpdateDuration : Nat
  FeeGrowthGlobalX64A : Uint128
  FeeGrowthGlobalX64B : Uint128
  ProtocolFeesTokenA : Nat
  ProtocolFeesTokenB : Nat
  SwapInAmountTokenA : Uint128
  SwapOutAmountTokenB : Uint128
  SwapInAmountTokenB : Uint128
  SwapOutAmountTokenA : Uint128
  Status : Nat
  Padding2 : List Byte
  RewardInfos : List RewardInfo
  TickArrayBitmap : List Nat
  TotalFeesTokenA : Nat
  TotalFeesClaimedTokenA : Nat
  TotalFeesTokenB : Nat
  TotalFeesClaimedTokenB : Nat
  FundFeesTokenA : Nat
  FundFeesTokenB : Nat
  StartTime : Nat
  Padding3 : List Nat
deriving DecidableEq, Repr

/-- The local `sqrtPrice` of `calculatePrice`:
`(float64(Hi) * math.Pow(2, 64) + float64(Lo)) / math.Pow(2, 64)`. -/
def sqrtPrice (L : Libm) (poolState : PoolState) : F64 :=
  let hi := F64.mul (F64.ofNat poolState.SqrtPriceX64.Hi) (Pow L (F64.ofNat 2) (F64.ofNat 64))
  let lo := F64.ofNat poolState.SqrtPriceX64.Lo
  F64.div (F64.add hi lo) (Pow L (F64.ofNat 2) (F64.ofNat 64))

/-- Go's `calculatePrice`:
`sqrtPrice * sqrtPrice * math.Pow(10, float64(MintDecimalsA) - float64(MintDecimalsB))`. -/
def calculatePrice (L : Libm) (poolState : PoolState) : F64 :=
  let price := F64.mul (F64.mul (sqrtPrice L poolState) (sqrtPrice L poolState))
    (Pow L (F64.ofNat 10)
      (F64.sub (F64.ofNat poolState.MintDecimalsA) (F64.ofNat poolState.MintDecimalsB)))
  price

namespace F64

/-- Finite and strictly positive. -/
def isPosFinite : F64 → Bool
  | fin false m _ => decide (m ≠ 0)
  | _ => false

/-- Neither NaN nor carrying a sign bit: `+0`, a positive finite value or `+Inf`. -/
def nonNeg : F64 → Bool
  | nan => false
  | inf s => !s
  | fin s _ _ => !s

/-- Integer-valued exponents on which `math.Pow` does not call `Sqrt`, `Exp` or `Log`. -/
def intExponent (y : F64) : Bool :=
  !(eq y half) && !(eq y (neg half)) && eq (modf (abs y)).2 (ofNat 0)

/-- The unit roundoff of binary64, `2^-53`. -/
def eps : ℚ := 1 / 2 ^ 53

/-- The float `x` is finite, carries no sign bit, and its value lies between `lo * V` and
`hi * V`. -/
def Near (x : F64) (V lo hi : ℚ) : Prop :=
  ∃ (m : Nat) (e : Int), x = fin false m e ∧ lo * V ≤ (m : ℚ) * 2 ^ e ∧ (m : ℚ) * 2 ^ e ≤ hi * V

/-- Checks, in integer arithmetic, that `x` is a positive finite float whose value is within
`2^-50` (relative) of `10^k`. -/
def scaleClose (k : Int) (x : F64) : Bool :=
  match x with
  | fin false m e =>
    decide (m ≠ 0)
    && decide ((2 ^ 50 - 1) * (2 ^ (-e).toNat * 10 ^ k.toNat)
        ≤ 2 ^ 50 * (m * 2 ^ e.toNat * 10 ^ (-k).toNat))
    && decide (2 ^ 50 * (m * 2 ^ e.toNat * 10 ^ (-k).toNat)
        ≤ (2 ^ 50 + 1) * (2 ^ (-e).toNat * 10 ^ k.toNat))
  | _ => false

end F64

/-- Modelled from the spec: the Borsh decoder of the `binary` library
(`bin.NewBorshDecoder(...).Decode`), which `getUpdate` calls and which is not part of the
repository's sources. A decoding step consumes some of the unread bytes and returns the
value read together with the bytes left, or fails (`none`) when too few bytes are left. -/
def Decoder (α : Type) : Type := List Byte → Option (α × List Byte)

namespace Decoder

/-- The step that reads nothing. -/
def pure {α : Type} (a : α) : Decoder α := fun buf => some (a, buf)

/-- Sequencing: the second step continues where the first one stopped; a failure of
either is a failure of both. -/
def bind {α β : Type} (r : Decoder α) (k : α → Decoder β) : Decoder β :=
  fun buf =>
    match r buf with
    | none => none
    | some (a, rest) => k a rest

instance : Monad Decoder where
  pure := Decoder.pure
  bind := Decoder.bind

/-- The decoder that needs exactly `w` bytes and computes its value from them. -/
def fixed {α : Type} (w : Nat) (f : List Byte → α) : Decoder α :=
  fun buf => if buf.length < w then none else some (f (buf.take w), buf.drop w)

end Decoder

/-- Modelled from the spec: multi-byte integers are little-endian. The unsigned integer
stored little-endian in `bs`. -/
def leNat : List Byte → Nat
  | [] => 0
  | b :: bs => b.val + 256 * leNat bs

/-- The `n` little-endian bytes of `v` (reduced modulo `2^(8n)`). -/
def leBytes : Nat → Nat → List Byte
  | 0, _ => []
  | n + 1, v => Fin.ofNat (v % 256) :: leBytes n (v / 256)

/-- Two's-complement reading of a 32-bit word. -/
def toInt32 (v : Nat) : Int := if v < 2 ^ 31 then (v : Int) else (v : Int) - 2 ^ 32

/-- The 32-bit word of a signed value. -/
def ofInt32 (z : Int) : Nat := (z % 2 ^ 32).toNat

/-- Modelled from the spec: the read primitive of the Borsh decoder. It reads `n` raw
bytes and fails when fewer than `n` are left; no byte value is rejected. -/
def readBytes (n : Nat) : Decoder (List Byte) :=
  fun buf => if buf.length < n then none else some (buf.take n, buf.drop n)

/-- Modelled from the spec: an 8-bit unsigned field, one byte. -/
def readUint8 : Decoder Nat := do
  let bs ← readBytes 1
  pure (leNat bs)

/-- Modelled from the spec: a 16-bit unsigned field, two bytes, little-endian. -/
def readUint16 : Decoder Nat := do
  let bs ← readBytes 2
  pure (leNat bs)

/-- Modelled from the spec: a signed 32-bit field, four bytes, little-endian,
two's complement. -/
def readInt32 : Decoder Int := do
  let bs ← readBytes 4
  pure (toInt32 (leNat bs))

/-- Modelled from the spec: a 64-bit unsigned field, eight bytes, little-endian. -/
def readUint64 : Decoder Nat := do
  let bs ← readBytes 8
  pure (leNat bs)

/-- Modelled from the spec: a 128-bit field is two consecutive little-endian 64-bit words,
the low word first, then the high word. -/
def readUint128 : Decoder Uint128 := do
  let bs ← readBytes 16
  pure { Lo := leNat (bs.take 8), Hi := leNat (bs.drop 8) }

/-- Modelled from the spec: a public key is an opaque block of 32 bytes. -/
def readPublicKey : Decoder PublicKey := readBytes 32

/-- Modelled from the spec: a fixed-size array is the element decoder repeated the declared
number of times, in order, with no length prefix. -/
def readArray {α : Type} : Nat → Decoder α → Decoder (List α)
  | 0, _ => pure []
  | n + 1, r => do
    let a ← r
    let rest ← readArray n r
    pure (a :: rest)

/-- Modelled from the spec: the Borsh decoder walking the fields of `RewardInfo` in
declaration order. -/
def decodeRewardInfo : Decoder RewardInfo := do
  let rewardState ← readUint8
  let openTime ← readUint64
  let endTime ← readUint64
  let lastUpdateTime ← readUint64
  let emissionsPerSecondX64 ← readUint128
  let rewardTotalEmissioned ← readUint64
  let rewardClaimed ← readUint64
  let tokenMint ← readPublicKey
  let tokenVault ← readPublicKey
  let creator ← readPublicKey
  let rewardGrowthGlobalX64 ← readUint128
  pure {
    RewardState := rewardState
    OpenTime := openTime
    EndTime := endTime
    LastUpdateTime := lastUpdateTime
    EmissionsPerSecondX64 := emissionsPerSecondX64
    RewardTotalEmissioned := rewardTotalEmissioned
    RewardClaimed := rewardClaimed
    TokenMint := tokenMint
    TokenVault := tokenVault
    Creator := creator
    RewardGrowthGlobalX64 := rewardGrowthGlobalX64 }

/-- Modelled from the spec: `decoder.Decode(&poolState)`, the Borsh decoder walking the
fields of `PoolState` in declaration order. -/
def decodePoolState : Decoder PoolState := do
  let padding ← readBytes 8
  let bump ← readUint8
  let ammConfig ← readPublicKey
  let creator ← readPublicKey
  let mintA ← readPublicKey
  let mintB ← readPublicKey
  let vaultA ← readPublicKey
  let vaultB ← readPublicKey
  let observationId ← readPublicKey
  let mintDecimalsA ← readUint8
  let mintDecimalsB ← readUint8
  let tickSpacing ← readUint16
  let liquidity ← readUint128
  let sqrtPriceX64 ← readUint128
  let tickCurrent ← readInt32
  let observationIndex ← readUint16
  let observationUpdateDuration ← readUint16
  let feeGrowthGlobalX64A ← readUint128
  let feeGrowthGlobalX64B ← readUint128
  let protocolFeesTokenA ← readUint64
  let protocolFeesTokenB ← readUint64
  let swapInAmountTokenA ← readUint128
  let swapOutAmountTokenB ← readUint128
  let swapInAmountTokenB ← readUint128
  let swapOutAmountTokenA ← readUint128
  let status ← readUint8
  let padding2 ← readBytes 7
  let rewardInfos ← readArray 3 decodeRewardInfo
  let tickArrayBitmap ← readArray 16 readUint64
  let totalFeesTokenA ← readUint64
  let totalFeesClaimedTokenA ← readUint64
  let totalFeesTokenB ← readUint64
  let totalFeesClaimedTokenB ← readUint64
  let fundFeesTokenA ← readUint64
  let fundFeesTokenB ← readUint64
  let startTime ← readUint64
  let padding3 ← readArray 57 readUint64
  pure {
    Padding := padding
    Bump := bump
    AmmConfig := ammConfig
    Creator := creator
    MintA := mintA
    MintB := mintB
    VaultA := vaultA
    VaultB := vaultB
    ObservationId := observationId
    MintDecimalsA := mintDecimalsA
    MintDecimalsB := mintDecimalsB
    TickSpacing := tickSpacing
    Liquidity := liquidity
    SqrtPriceX64 := sqrtPriceX64
    TickCurrent := tickCurrent
    ObservationIndex := observationIndex
    ObservationUpdateDuration := observationUpdateDuration
    FeeGrowthGlobalX64A := feeGrowthGlobalX64A
    FeeGrowthGlobalX64B := feeGrowthGlobalX64B
    ProtocolFeesTokenA := protocolFeesTokenA
    ProtocolFeesTokenB := protocolFeesTokenB
    SwapInAmountTokenA := swapInAmountTokenA
    SwapOutAmountTokenB := swapOutAmountTokenB
    SwapInAmountTokenB := swapInAmountTokenB
    SwapOutAmountTokenA := swapOutAmountTokenA
    Status := status
    Padding2 := padding2
    RewardInfos := rewardInfos
    TickArrayBitmap := tickArrayBitmap
    TotalFeesTokenA := totalFeesTokenA
    TotalFeesClaimedTokenA := totalFeesClaimedTokenA
    TotalFeesTokenB := totalFeesTokenB
    TotalFeesClaimedTokenB := totalFeesClaimedTokenB
    FundFeesTokenA := fundFeesTokenA
    FundFeesTokenB := fundFeesTokenB
    StartTime := startTime
    Padding3 := padding3 }

/-- The bytes `bs[off .. off+len)`. -/
def slice (bs : List Byte) (off len : Nat) : List Byte := (bs.drop off).take len

/-- Consecutive chunks: `n` blocks of `w` bytes each. -/
def chunks : Nat → Nat → List Byte → List (List Byte)
  | 0, _, _ => []
  | n + 1, w, bs => bs.take w :: chunks n w (bs.drop w)

/-- Positional reading of a 128-bit value from its 16 bytes. -/
def Uint128.ofBytes (bs : List Byte) : Uint128 :=
  { Lo := leNat (bs.take 8), Hi := leNat (bs.drop 8) }

section

open Decoder

/-- Positional reading of a reward record from its 169 bytes. -/
def RewardInfo.ofBytes (bs : List Byte) : RewardInfo :=
  { RewardState := leNat (slice bs 0 1)
    OpenTime := leNat (slice bs 1 8)
    EndTime := leNat (slice bs 9 8)
    LastUpdateTime := leNat (slice bs 17 8)
    EmissionsPerSecondX64 := Uint128.ofBytes (slice bs 25 16)
    RewardTotalEmissioned := leNat (slice bs 41 8)
    RewardClaimed := leNat (slice bs 49 8)
    TokenMint := slice bs 57 32
    TokenVault := slice bs 89 32
    Creator := slice bs 121 32
    RewardGrowthGlobalX64 := Uint128.ofBytes (slice bs 153 16) }

/-- Positional reading of the pool record from its 1544 bytes. -/
def PoolState.ofBytes (bs : List Byte) : PoolState :=
  { Padding := slice bs 0 8
    Bump := leNat (slice bs 8 1)
    AmmConfig := slice bs 9 32
    Creator := slice bs 41 32
    MintA := slice bs 73 32
    MintB := slice bs 105 32
    VaultA := slice bs 137 32
    VaultB := slice bs 169 32
    ObservationId := slice bs 201 32
    MintDecimalsA := leNat (slice bs 233 1)
    MintDecimalsB := leNat (slice bs 234 1)
    TickSpacing := leNat (slice bs 235 2)
    Liquidity := Uint128.ofBytes (slice bs 237 16)
    SqrtPriceX64 := Uint128.ofBytes (slice bs 253 16)
    TickCurrent := toInt32 (leNat (slice bs 269 4))
    ObservationIndex := leNat (slice bs 273 2)
    ObservationUpdateDuration := leNat (slice bs 275 2)
    FeeGrowthGlobalX64A := Uint128.ofBytes (slice bs 277 16)
    FeeGrowthGlobalX64B := Uint128.ofBytes (slice bs 293 16)
    ProtocolFeesTokenA := leNat (slice bs 309 8)
    ProtocolFeesTokenB := leNat (slice bs 317 8)
    SwapInAmountTokenA := Uint128.ofBytes (slice bs 325 16)
    SwapOutAmountTokenB := Uint128.ofBytes (slice bs 341 16)
    SwapInAmountTokenB := Uint128.ofBytes (slice bs 357 16)
    SwapOutAmountTokenA := Uint128.ofBytes (slice bs 373 16)
    Status := leNat (slice bs 389 1)
    Padding2 := slice bs 390 7
    RewardInfos := (chunks 3 169 (slice bs 397 507)).map RewardInfo.ofBytes
    TickArrayBitmap := (chunks 16 8 (slice bs 904 128)).map leNat
    TotalFeesTokenA := leNat (slice bs 1032 8)
    TotalFeesClaimedTokenA := leNat (slice bs 1040 8)
    TotalFeesTokenB := leNat (slice bs 1048 8)
    TotalFeesClaimedTokenB := leNat (slice bs 1056 8)
    FundFeesTokenA := leNat (slice bs 1064 8)
    FundFeesTokenB := leNat (slice bs 1072 8)
    StartTime := leNat (slice bs 1080 8)
    Padding3 := (chunks 57 8 (slice bs 1088 456)).map leNat }

/-- Serialization of a 128-bit value: the low word, then the high word. -/
def encodeUint128 (u : Uint128) : List Byte := leBytes 8 u.Lo ++ leBytes 8 u.Hi

/-- Field-by-field serialization of a reward record: declaration order, declared widths,
little-endian. -/
def encodeRewardInfo (ri : RewardInfo) : List Byte :=
  leBytes 1 ri.RewardState ++
  (leBytes 8 ri.OpenTime ++
  (leBytes 8 ri.EndTime ++
  (leBytes 8 ri.LastUpdateTime ++
  (encodeUint128 ri.EmissionsPerSecondX64 ++
  (leBytes 8 ri.RewardTotalEmissioned ++
  (leBytes 8 ri.RewardClaimed ++
  (ri.TokenMint ++
  (ri.TokenVault ++
  (ri.Creator ++
  encodeUint128 ri.RewardGrowthGlobalX64)))))))))

/-- Field-by-field serialization of the pool record: declaration order, declared widths,
little-endian, 128-bit values as low word then high word. -/
def encodePoolState (ps : PoolState) : List Byte :=
  ps.Padding ++
  (leBytes 1 ps.Bump ++
  (ps.AmmConfig ++
  (ps.Creator ++
  (ps.MintA ++
  (ps.MintB ++
  (ps.VaultA ++
  (ps.VaultB ++
  (ps.ObservationId ++
  (leBytes 1 ps.MintDecimalsA ++
  (leBytes 1 ps.MintDecimalsB ++
  (leBytes 2 ps.TickSpacing ++
  (encodeUint128 ps.Liquidity ++
  (encodeUint128 ps.SqrtPriceX64 ++
  (leBytes 4 (ofInt32 ps.TickCurrent) ++
  (leBytes 2 ps.ObservationIndex ++
  (leBytes 2 ps.ObservationUpdateDuration ++
  (encodeUint128 ps.FeeGrowthGlobalX64A ++
  (encodeUint128 ps.FeeGrowthGlobalX64B ++
  (leBytes 8 ps.ProtocolFeesTokenA ++
  (leBytes 8 ps.ProtocolFeesTokenB ++
  (encodeUint128 ps.SwapInAmountTokenA ++
  (encodeUint128 ps.SwapOutAmountTokenB ++
  (encodeUint128 ps.SwapInAmountTokenB ++
  (encodeUint128 ps.SwapOutAmountTokenA ++
  (leBytes 1 ps.Status ++
  (ps.Padding2 ++
  ((ps.RewardInfos.map encodeRewardInfo).flatten ++
  ((ps.TickArrayBitmap.map (leBytes 8)).flatten ++
  (leBytes 8 ps.TotalFeesTokenA ++
  (leBytes 8 ps.TotalFeesClaimedTokenA ++
  (leBytes 8 ps.TotalFeesTokenB ++
  (leBytes 8 ps.TotalFeesClaimedTokenB ++
  (leBytes 8 ps.FundFeesTokenA ++
  (leBytes 8 ps.FundFeesTokenB ++
  (leBytes 8 ps.StartTime ++
  (ps.Padding3.map (leBytes 8)).flatten)))))))))))))))))))))))))))))))))))

end

section

open F64 Decoder

/-- `calculatePrice` as a function of the four numbers it reads from the record. -/
def priceOf (L : Libm) (hi lo a b : Nat) : F64 :=
  F64.mul
    (F64.mul
      (F64.div (F64.add (F64.mul (F64.ofNat hi) (Pow L (F64.ofNat 2) (F64.ofNat 64)))
        (F64.ofNat lo)) (Pow L (F64.ofNat 2) (F64.ofNat 64)))
      (F64.div (F64.add (F64.mul (F64.ofNat hi) (Pow L (F64.ofNat 2) (F64.ofNat 64)))
        (F64.ofNat lo)) (Pow L (F64.ofNat 2) (F64.ofNat 64))))
    (Pow L (F64.ofNat 10) (F64.sub (F64.ofNat a) (F64.ofNat b)))

/-- The float `2^64`. -/
def two64 : F64 := F64.fin false (2 ^ 52) 12

/-- The record decoded from 1544 zero bytes. -/
def zeroPool : PoolState := PoolState.ofBytes (List.replicate 1544 0)

/-- The float `+0`. -/
def F64.zero : F64 := F64.fin false 0 (-1074)

/-- The float `1.0`. -/
def F64.one : F64 := F64.fin false (2 ^ 52) (-52)

/-- The float `10.0`. -/
def F64.ten : F64 := F64.fin false (5 * 2 ^ 50) (-49)

/-- The float `0.1`, that is `1.0 / 10.0` rounded: `7205759403792794 * 2^-56`. -/
def F64.tenth : F64 := F64.fin false 7205759403792794 (-56)

/-- Go's `RaydiumCLMMConfig`: the source-specific configuration. -/
structure RaydiumCLMMConfig where
  ContractAddress : String
  HttpProviderUrl : String
  UpdateFrequency : String

/-- Go's `raydiumCLMMDataSource`, without the fields `getUpdate` does not read; the RPC
client is part of `World`. -/
structure raydiumCLMMDataSource where
  raydiumCLMMConfig : RaydiumCLMMConfig
  valueId : String

/-- Go's `types.DataSourceValueUpdate`. -/
structure DataSourceValueUpdate where
  ValueId : String
  DataSourceId : String
  Time : Int
  Value : F64
deriving DecidableEq

/-- Go's `types.DataSourceUpdateMap`, a map from value id to update, as an association list
with distinct keys. -/
abbrev DataSourceUpdateMap := List (String × DataSourceValueUpdate)

/-- The assignment `updates[k] = v`. -/
def DataSourceUpdateMap.set (m : DataSourceUpdateMap) (k : String) (v : DataSourceValueUpdate) :
    DataSourceUpdateMap :=
  (k, v) :: m.filter (fun p => p.1 ≠ k)

/-- The three errors `getUpdate` returns, named after the message each one wraps. -/
inductive UpdateError where
  | failedToCreatePublicKey : UpdateError
  | failedToGetAccountInfo : UpdateError
  | failedToDeserializePoolState : UpdateError
deriving DecidableEq, Repr

/-- What `getUpdate` is run against: the collaborators it calls and the constant it reads.
`PublicKeyFromBase58` and `GetAccountInfoWithOpts` return `none` where the Go functions
return an error; `Now` is `time.Now().UTC().UnixMilli()`. -/
structure World where
  L : Libm
  RaydiumCLMMDataSourceId : String
  PublicKeyFromBase58 : String → Option PublicKey
  GetAccountInfoWithOpts : PublicKey → Option (List Byte)
  Now : Int

/-- The pair `(types.DataSourceUpdateMap, error)` returned by `getUpdate` (`none` is Go's
`nil`), together with the account fetches it issued, in order. -/
structure UpdateResult where
  updates : Option DataSourceUpdateMap
  err : Option UpdateError
  fetched : List PublicKey

/-- Go's `getUpdate`. -/
def getUpdate (w : World) (r : raydiumCLMMDataSource) : UpdateResult :=
  match w.PublicKeyFromBase58 r.raydiumCLMMConfig.ContractAddress with
  | none => { updates := none, err := some .failedToCreatePublicKey, fetched := [] }
  | some pubKey =>
    match w.GetAccountInfoWithOpts pubKey with
    | none => { updates := none, err := some .failedToGetAccountInfo, fetched := [pubKey] }
    | some data =>
      match decodePoolState data with
      | none =>
        { updates := none, err := some .failedToDeserializePoolState, fetched := [pubKey] }
      | some (poolState, _) =>
        let updates : DataSourceUpdateMap := []
        let updateTime := w.Now
        let updates := updates.set r.valueId
          { ValueId := r.valueId
            DataSourceId := w.RaydiumCLMMDataSourceId
            Time := updateTime
            Value := calculatePrice w.L poolState }
        { updates := some updates, err := none, fetched := [pubKey] }

/-- The float `4.0`. -/
def F64.four : F64 := F64.fin false (2 ^ 52) (-50)

/-- The float `4000.0`. -/
def F64.fourThousand : F64 := F64.fin false (125 * 2 ^ 46) (-41)

/-- A 1544-byte account buffer: `MintDecimalsA = MintDecimalsB = 6` at offsets 233 and 234,
`SqrtPriceX64 = (Lo = 0, Hi = 2)` at offsets 253..268, zero elsewhere. -/
def sampleBuffer : List Byte :=
  List.replicate 233 0 ++ [6, 6] ++ List.replicate 18 0 ++
    [0, 0, 0, 0, 0, 0, 0, 0, 2, 0, 0, 0, 0, 0, 0, 0] ++ List.replicate 1275 0

/-- A world in which the address `pool` parses and the account holds `data`. -/
def sampleWorld (data : List Byte) : World :=
  { L := Libm.none
    RaydiumCLMMDataSourceId := "RAYDIUM_CLMM"
    PublicKeyFromBase58 := fun s => if s = "pool" then some (List.replicate 32 1) else none
    GetAccountInfoWithOpts := fun _ => some data
    Now := 1700000000000 }

/-- A data source configured with the address `sampleWorld` accepts. -/
def sampleSource : raydiumCLMMDataSource :=
  { raydiumCLMMConfig :=
      { ContractAddress := "pool", HttpProviderUrl := "http://rpc", UpdateFrequency := "1s" }
    valueId := "SOLUSD" }

/-- The record decoded from `sampleBuffer`. -/
def samplePool : PoolState := PoolState.ofBytes sampleBuffer

end

/-! ## Theorems -/

namespace F64

theorem bitLenAux_spec (fuel : Nat) : ∀ n, n ≤ fuel →
    (n = 0 → bitLenAux fuel n = 0) ∧
    (n ≠ 0 → 2 ^ (bitLenAux fuel n - 1) ≤ n ∧ n < 2 ^ bitLenAux fuel n ∧ 1 ≤ bitLenAux fuel n) := by
  induction fuel with
  | zero =>
    intro n hn
    have : n = 0 := by omega
    subst this
    simp [bitLenAux]
  | succ f ih =>
    intro n hn
    by_cases h0 : n = 0
    · subst h0; simp [bitLenAux]
    · refine ⟨fun h => absurd h h0, fun _ => ?_⟩
      have hle : n / 2 ≤ f := by omega
      obtain ⟨i0, i1⟩ := ih (n / 2) hle
      simp only [bitLenAux, h0, if_false, Nat.add_sub_cancel]
      by_cases h2 : n / 2 = 0
      · rw [i0 h2]
        have : n = 1 := by omega
        subst this
        simp
      · obtain ⟨a, b, c⟩ := i1 h2
        have e1 : 2 ^ bitLenAux f (n / 2) = 2 * 2 ^ (bitLenAux f (n / 2) - 1) := by
          rw [← pow_succ']
          congr 1
          omega
        have e2 : 2 ^ (bitLenAux f (n / 2) + 1) = 2 * 2 ^ bitLenAux f (n / 2) := by
          rw [pow_succ']
        refine ⟨?_, ?_, ?_⟩ <;> omega

theorem bitLen_zero : bitLen 0 = 0 := by decide

theorem bitLen_spec {n : Nat} (h : n ≠ 0) :
    2 ^ (bitLen n - 1) ≤ n ∧ n < 2 ^ bitLen n ∧ 1 ≤ bitLen n :=
  (bitLenAux_spec n n (Nat.le_refl n)).2 h

theorem bitLen_unique {n k : Nat} (h1 : 2 ^ (k - 1) ≤ n) (h2 : n < 2 ^ k) (hk : 1 ≤ k) :
    bitLen n = k := by
  have hn : n ≠ 0 := by
    have := Nat.two_pow_pos (k - 1)
    omega
  obtain ⟨a, b, c⟩ := bitLen_spec hn
  by_contra hne
  rcases Nat.lt_or_gt_of_ne hne with hlt | hgt
  · have : 2 ^ bitLen n ≤ 2 ^ (k - 1) := Nat.pow_le_pow_right (by norm_num) (by omega)
    omega
  · have : 2 ^ k ≤ 2 ^ (bitLen n - 1) := Nat.pow_le_pow_right (by norm_num) (by omega)
    omega

theorem bitLen_mul_pow {n : Nat} (h : n ≠ 0) (k : Nat) : bitLen (n * 2 ^ k) = bitLen n + k := by
  obtain ⟨a, b, c⟩ := bitLen_spec h
  apply bitLen_unique
  · have : bitLen n + k - 1 = (bitLen n - 1) + k := by omega
    rw [this, pow_add]
    exact Nat.mul_le_mul_right _ a
  · rw [pow_add]
    exact Nat.mul_lt_mul_of_pos_right b (Nat.two_pow_pos k)
  · omega

theorem pow_toNat_bound {m L : Nat} {k : Int} {K : Nat} (hm : m < 2 ^ L) (hk : 0 ≤ k)
    (hK : (L : Int) + k ≤ K) : m * 2 ^ k.toNat < 2 ^ K := by
  have h1 : m * 2 ^ k.toNat < 2 ^ L * 2 ^ k.toNat :=
    Nat.mul_lt_mul_of_pos_right hm (Nat.two_pow_pos _)
  have h2 : 2 ^ L * 2 ^ k.toNat = 2 ^ (L + k.toNat) := by rw [pow_add]
  have h3 : 2 ^ (L + k.toNat) ≤ 2 ^ K := Nat.pow_le_pow_right (by norm_num) (by omega)
  omega

theorem round_canon (s : Bool) (m : Nat) (e : Int) :
    round s m e = inf s ∨ ∃ q t, round s m e = fin s q t ∧ Canon q t := by
  unfold round
  by_cases hm : m = 0
  · right
    refine ⟨0, -1074, by simp [hm], ?_⟩
    unfold Canon
    norm_num
  · simp only [hm, if_false]
    obtain ⟨a, b, c⟩ := bitLen_spec hm
    generalize bitLen m = L at a b c ⊢
    generalize ht : max (e + (L : Int) - 53) (-1074) = t
    have ht1 : -1074 ≤ t := by omega
    have ht2 : e + (L : Int) - 53 ≤ t := by omega
    have ht3 : t = e + (L : Int) - 53 ∨ t = -1074 := by omega
    by_cases hte : t ≤ e
    · simp only [hte, if_true]
      by_cases hbig : 971 < t
      · left; simp [hbig]
      · right
        refine ⟨_, _, by rw [if_neg hbig], ?_, ht1, by omega, ?_⟩
        · exact pow_toNat_bound b (by omega) (by push_cast; omega)
        · rcases ht3 with h | h
          · left
            have hk : (e - t).toNat = 53 - L := by omega
            rw [hk]
            have h52 : 2 ^ 52 = 2 ^ (L - 1) * 2 ^ (53 - L) := by
              rw [← pow_add]; congr 1; omega
            rw [h52]
            exact Nat.mul_le_mul_right _ a
          · right; exact h
    · simp only [hte, if_false]
      generalize hsh : (t - e).toNat = sh
      have hsh1 : 1 ≤ sh := by omega
      have hq : m / 2 ^ sh < 2 ^ 53 ∧ (2 ^ 52 ≤ m / 2 ^ sh ∨ t = -1074) := by
        constructor
        · rw [Nat.div_lt_iff_lt_mul (Nat.two_pow_pos _), ← pow_add]
          exact lt_of_lt_of_le b (Nat.pow_le_pow_right (by norm_num) (by omega))
        · rcases ht3 with h | h
          · left
            rw [Nat.le_div_iff_mul_le (Nat.two_pow_pos _), ← pow_add]
            exact le_trans (Nat.pow_le_pow_right (by norm_num) (by omega)) a
          · right; exact h
      generalize m / 2 ^ sh = q at hq ⊢
      have key : ∀ q1, (q1 = q ∨ q1 = q + 1) →
          ((if 971 < (if q1 = 2 ^ 53 then t + 1 else t) then inf s
            else fin s (if q1 = 2 ^ 53 then 2 ^ 52 else q1) (if q1 = 2 ^ 53 then t + 1 else t))
              = inf s) ∨
          ∃ q' t', (if 971 < (if q1 = 2 ^ 53 then t + 1 else t) then inf s
            else fin s (if q1 = 2 ^ 53 then 2 ^ 52 else q1) (if q1 = 2 ^ 53 then t + 1 else t))
              = fin s q' t' ∧ Canon q' t' := by
        intro q1 hq1
        by_cases h53 : q1 = 2 ^ 53
        · simp only [h53, if_true]
          by_cases hbig : 971 < t + 1
          · left; rw [if_pos hbig]
          · right
            refine ⟨_, _, by rw [if_neg hbig], ?_⟩
            unfold Canon
            refine ⟨by norm_num, by omega, by omega, Or.inl (le_refl _)⟩
        · simp only [h53, if_false]
          by_cases hbig : 971 < t
          · left; rw [if_pos hbig]
          · right
            refine ⟨_, _, by rw [if_neg hbig], ?_⟩
            unfold Canon
            refine ⟨by omega, ht1, by omega, ?_⟩
            rcases hq.2 with h | h
            · left; omega
            · right; exact h
      by_cases hup : 2 ^ (sh - 1) < m % 2 ^ sh ∨ m % 2 ^ sh = 2 ^ (sh - 1) ∧ q % 2 = 1
      · simp only [hup, if_true]
        exact key (q + 1) (Or.inr rfl)
      · simp only [hup, if_false]
        exact key q (Or.inl rfl)

theorem bitLen_le_of_lt {m K : Nat} (hm : m ≠ 0) (h : m < 2 ^ K) : bitLen m ≤ K := by
  obtain ⟨a, _, c⟩ := bitLen_spec hm
  by_contra hc
  have : 2 ^ K ≤ 2 ^ (bitLen m - 1) := Nat.pow_le_pow_right (by norm_num) (by omega)
  omega

theorem bitLen_eq_of_canon {m : Nat} (h1 : 2 ^ 52 ≤ m) (h2 : m < 2 ^ 53) : bitLen m = 53 :=
  bitLen_unique h1 h2 (by norm_num)

/-- A canonical value is a fixed point of rounding. -/
theorem round_id (s : Bool) {m : Nat} {e : Int} (h : Canon m e) : round s m e = fin s m e := by
  obtain ⟨h1, h2, h3, h4⟩ := h
  unfold round
  by_cases hm : m = 0
  · subst hm
    have : e = -1074 := by
      rcases h4 with h | h
      · norm_num at h
      · exact h
    simp [this]
  · simp only [hm, if_false]
    have hL := bitLen_le_of_lt hm h1
    have ht : max (e + (bitLen m : Int) - 53) (-1074) = e := by
      rcases h4 with h | h
      · rw [bitLen_eq_of_canon h h1]; omega
      · omega
    simp only [ht, le_refl, if_true]
    rw [if_neg (by omega)]
    simp

/-- Rounding depends only on the value: trailing zero bits can be moved into the exponent. -/
theorem round_shift (s : Bool) (m k : Nat) (e : Int) :
    round s (m * 2 ^ k) e = round s m (e + k) := by
  by_cases hm : m = 0
  · subst hm; simp [round]
  · have hm2 : m * 2 ^ k ≠ 0 := Nat.mul_ne_zero hm (Nat.two_pow_pos k).ne'
    obtain ⟨a, b, c⟩ := bitLen_spec hm
    unfold round
    simp only [hm, hm2, if_false, bitLen_mul_pow hm]
    generalize hL : bitLen m = L at a b c
    have e1 : max (e + ((L + k : Nat) : Int) - 53) (-1074) = max (e + (k : Int) + (L : Int) - 53) (-1074) := by
      push_cast; congr 1; ring
    rw [e1]
    generalize ht : max (e + (k : Int) + (L : Int) - 53) (-1074) = t
    have ht1 : -1074 ≤ t := by omega
    have ht2 : e + (k : Int) + (L : Int) - 53 ≤ t := by omega
    by_cases hA : t ≤ e
    · have hA2 : t ≤ e + k := by omega
      simp only [hA, hA2, if_true]
      have : (e + (k : Int) - t).toNat = k + (e - t).toNat := by omega
      rw [this, pow_add, Nat.mul_assoc]
    · simp only [hA, if_false]
      by_cases hB : t ≤ e + k
      · simp only [hB, if_true]
        generalize hsh : (t - e).toNat = sh
        have hsh1 : 1 ≤ sh := by omega
        have hk : k = (k - sh) + sh := by omega
        have hq : m * 2 ^ k / 2 ^ sh = m * 2 ^ (k - sh) := by
          conv_lhs => rw [hk, pow_add, ← Nat.mul_assoc]
          exact Nat.mul_div_cancel _ (Nat.two_pow_pos _)
        have hr : m * 2 ^ k % 2 ^ sh = 0 := by
          conv_lhs => rw [hk, pow_add, ← Nat.mul_assoc]
          exact Nat.mul_mod_left _ _
        have hhalf : 0 < 2 ^ (sh - 1) := Nat.two_pow_pos _
        have hlt : m * 2 ^ (k - sh) < 2 ^ 53 := by
          have := pow_toNat_bound (k := ((k - sh : Nat) : Int)) (K := 53) b (by omega) (by omega)
          simpa using this
        have hcond : ¬ (2 ^ (sh - 1) < 0 ∨ 0 = 2 ^ (sh - 1) ∧ m * 2 ^ (k - sh) % 2 = 1) := by
          omega
        simp only [hq, hr, hcond, if_false, hlt.ne]
        have : (e + (k : Int) - t).toNat = k - sh := by omega
        rw [this]
      · simp only [hB, if_false]
        generalize hsh : (t - (e + (k : Int))).toNat = sh
        have hsh1 : 1 ≤ sh := by omega
        have hsh' : (t - e).toNat = sh + k := by omega
        rw [hsh']
        have hq : m * 2 ^ k / 2 ^ (sh + k) = m / 2 ^ sh := by
          rw [pow_add]
          exact Nat.mul_div_mul_right _ _ (Nat.two_pow_pos _)
        have hr : m * 2 ^ k % 2 ^ (sh + k) = m % 2 ^ sh * 2 ^ k := by
          rw [pow_add]
          exact Nat.mul_mod_mul_right _ _ _
        have hh : 2 ^ (sh + k - 1) = 2 ^ (sh - 1) * 2 ^ k := by
          rw [← pow_add]; congr 1; omega
        have hp : 0 < 2 ^ k := Nat.two_pow_pos k
        have c1 : (2 ^ (sh - 1) * 2 ^ k < m % 2 ^ sh * 2 ^ k) ↔ (2 ^ (sh - 1) < m % 2 ^ sh) :=
          Nat.mul_lt_mul_right hp
        have c2 : (m % 2 ^ sh * 2 ^ k = 2 ^ (sh - 1) * 2 ^ k) ↔ (m % 2 ^ sh = 2 ^ (sh - 1)) :=
          Nat.mul_left_inj hp.ne'
        simp only [hq, hr, hh, c1, c2]

/-- Small unsigned integers convert exactly. -/
theorem round_exact (s : Bool) {a : Nat} (h : a < 2 ^ 53) :
    ∃ k : Nat, round s a 0 = fin s (a * 2 ^ k) (-(k : Int)) := by
  by_cases ha : a = 0
  · subst ha
    refine ⟨1074, ?_⟩
    rw [Nat.zero_mul]
    rfl
  · have hL := bitLen_le_of_lt ha h
    obtain ⟨_, _, c⟩ := bitLen_spec ha
    refine ⟨53 - bitLen a, ?_⟩
    unfold round
    simp only [ha, if_false]
    have ht : max ((0 : Int) + (bitLen a : Int) - 53) (-1074) = -((53 - bitLen a : Nat) : Int) := by
      omega
    rw [ht]
    rw [if_pos (by omega), if_neg (by omega)]
    have hk : ((0 : Int) - -((53 - bitLen a : Nat) : Int)).toNat = 53 - bitLen a := by omega
    rw [hk]

theorem scaled_pow (s : Bool) (a k K : Nat) (h : k ≤ K) :
    scaled (-(K : Int)) s (a * 2 ^ k) (-(k : Int)) = (if s then -1 else 1) * ((a : Int) * 2 ^ K) := by
  unfold scaled
  have hk : (-(k : Int) - -(K : Int)).toNat = K - k := by omega
  rw [hk, Nat.mul_assoc, ← pow_add]
  have : k + (K - k) = K := by omega
  rw [this]
  push_cast
  rfl

theorem sub_ofNat {a b : Nat} (ha : a < 2 ^ 53) (hb : b < 2 ^ 53) :
    sub (ofNat a) (ofNat b) = ofInt ((a : Int) - (b : Int)) := by
  obtain ⟨ka, hka⟩ := round_exact false ha
  obtain ⟨kb, hkb⟩ := round_exact false hb
  unfold ofNat
  rw [hka, hkb]
  simp only [sub, neg, add, ofInt]
  have hmin : min (-(ka : Int)) (-(kb : Int)) = -((max ka kb : Nat) : Int) := by omega
  rw [hmin, scaled_pow _ _ _ _ (le_max_left ka kb), scaled_pow _ _ _ _ (le_max_right ka kb)]
  generalize max ka kb = K
  have hz : (if false = true then (-1 : Int) else 1) * ((a : Int) * 2 ^ K) +
      (if (!false) = true then (-1 : Int) else 1) * ((b : Int) * 2 ^ K)
        = ((a : Int) - (b : Int)) * 2 ^ K := by
    simp
    ring
  rw [hz]
  have hp : (0 : Int) < 2 ^ K := by positivity
  by_cases hab : (a : Int) - (b : Int) = 0
  · rw [hab]
    simp [round]
  · have hne : ((a : Int) - (b : Int)) * 2 ^ K ≠ 0 := mul_ne_zero hab hp.ne'
    rw [if_neg hne]
    have hs : decide (((a : Int) - (b : Int)) * 2 ^ K < 0) = decide ((a : Int) - (b : Int) < 0) := by
      congr 1
      apply propext
      constructor
      · intro h; by_contra hc; push_neg at hc
        have := mul_nonneg hc hp.le
        omega
      · intro h; exact mul_neg_of_neg_of_pos h hp
    have hn : (((a : Int) - (b : Int)) * 2 ^ K).natAbs = ((a : Int) - (b : Int)).natAbs * 2 ^ K := by
      rw [Int.natAbs_mul, Int.natAbs_pow]
      rfl
    rw [hs, hn, round_shift]
    simp

/-- Known value: `1.0 / 3.0` is `0x3FD5555555555555`. -/
theorem known_one_third : div (ofNat 1) (ofNat 3) = fin false 6004799503160661 (-54) := by
  decide

/-- Known value: `0.1 + 0.2` is `0.30000000000000004` (`0x3FD3333333333334`). -/
theorem known_tenth_plus_fifth :
    add (div (ofNat 1) (ofNat 10)) (div (ofNat 2) (ofNat 10))
      = fin false 5404319552844596 (-54) := by
  decide

/-- Known values: `float64(2^53 + 1)` is `2^53` and `float64(2^53 + 3)` is `2^53 + 4`
(ties go to the even significand). -/
theorem known_ties_to_even :
    ofNat (2 ^ 53 + 1) = fin false (2 ^ 52) 1 ∧ ofNat (2 ^ 53 + 3) = fin false (2 ^ 52 + 2) 1 := by
  decide

/-- Known values: the largest finite double plus one unit in the last place overflows to
`+Inf`, and half the smallest subnormal rounds to zero. -/
theorem known_overflow_underflow :
    add (fin false (2 ^ 53 - 1) 971) (fin false 1 971) = inf false
    ∧ div (fin false 1 (-1074)) (ofNat 2) = fin false 0 (-1074) := by
  decide

theorem ofNat_one : ofNat 1 = fin false (2 ^ 52) (-52) := by decide

theorem mul_one {s : Bool} {m : Nat} {e : Int} (h : Canon m e) :
    mul (fin s m e) (ofNat 1) = fin s m e := by
  rw [ofNat_one]
  simp only [mul, Bool.xor_false]
  rw [round_shift]
  have : e + -52 + ((52 : Nat) : Int) = e := by omega
  rw [this]
  exact round_id s h

theorem nonNeg_round (m : Nat) (e : Int) : nonNeg (round false m e) = true := by
  rcases round_canon false m e with h | ⟨q, t, h, _⟩ <;> rw [h] <;> rfl

theorem nonNeg_ofNat (n : Nat) : nonNeg (ofNat n) = true := nonNeg_round n 0

theorem nonNeg_mul_pos {x y : F64} (hx : nonNeg x = true) (hy : isPosFinite y = true) :
    nonNeg (mul x y) = true := by
  cases x with
  | nan => simp [nonNeg] at hx
  | inf s =>
    cases y with
    | nan => simp [isPosFinite] at hy
    | inf t => simp [isPosFinite] at hy
    | fin t n f =>
      cases t <;> simp [isPosFinite] at hy
      simp [nonNeg] at hx
      simp [mul, hy, hx, nonNeg]
  | fin s m e =>
    cases y with
    | nan => simp [isPosFinite] at hy
    | inf t => simp [isPosFinite] at hy
    | fin t n f =>
      cases t <;> simp [isPosFinite] at hy
      simp [nonNeg] at hx
      simp only [mul, hx, Bool.xor_false]
      exact nonNeg_round _ _

theorem nonNeg_mul_self {x : F64} (hx : nonNeg x = true) : nonNeg (mul x x) = true := by
  cases x with
  | nan => simp [nonNeg] at hx
  | inf s => simp [nonNeg] at hx; simp [mul, hx, nonNeg]
  | fin s m e =>
    simp [nonNeg] at hx
    simp only [mul, hx, Bool.xor_false]
    exact nonNeg_round _ _

theorem scaled_nonneg (b : Int) (m : Nat) (e : Int) : 0 ≤ scaled b false m e := by
  unfold scaled
  simp

theorem nonNeg_add {x y : F64} (hx : nonNeg x = true) (hy : nonNeg y = true) :
    nonNeg (add x y) = true := by
  cases x with
  | nan => simp [nonNeg] at hx
  | inf s =>
    simp [nonNeg] at hx
    cases y with
    | nan => simp [nonNeg] at hy
    | inf t => simp [nonNeg] at hy; simp [add, hx, hy, nonNeg]
    | fin t n f => simp [add, hx, nonNeg]
  | fin s m e =>
    simp [nonNeg] at hx
    cases y with
    | nan => simp [nonNeg] at hy
    | inf t => simp [nonNeg] at hy; simp [add, hy, nonNeg]
    | fin t n f =>
      simp [nonNeg] at hy
      subst hx hy
      simp only [add]
      have h1 := scaled_nonneg (min e f) m e
      have h2 := scaled_nonneg (min e f) n f
      split_ifs with hz
      · rfl
      · have : decide (scaled (min e f) false m e + scaled (min e f) false n f < 0) = false := by
          simp; omega
        rw [this]
        exact nonNeg_round _ _

theorem nonNeg_div_pos {x y : F64} (hx : nonNeg x = true) (hy : isPosFinite y = true) :
    nonNeg (div x y) = true := by
  cases y with
  | nan => simp [isPosFinite] at hy
  | inf t => simp [isPosFinite] at hy
  | fin t n f =>
    cases t <;> simp [isPosFinite] at hy
    cases x with
    | nan => simp [nonNeg] at hx
    | inf s => simp [nonNeg] at hx; simp [div, hx, nonNeg]
    | fin s m e =>
      simp [nonNeg] at hx
      subst hx
      simp only [div, hy, if_false, Bool.xor_false]
      split_ifs
      all_goals first | rfl | exact nonNeg_round _ _

theorem nonNeg_spec {x : F64} (h : nonNeg x = true) :
    isNaN x = false ∧ signbit x = false ∧ lt x (ofNat 0) = false := by
  cases x with
  | nan => simp [nonNeg] at h
  | inf s => simp [nonNeg] at h; subst h; exact ⟨rfl, rfl, rfl⟩
  | fin s m e =>
    simp [nonNeg] at h; subst h
    refine ⟨rfl, rfl, ?_⟩
    have h0 : ofNat 0 = fin false 0 (-1074) := rfl
    rw [h0]
    simp only [lt]
    have := scaled_nonneg (min e (-1074)) m e
    simp [scaled]

end F64

theorem Pow_libm (L L' : Libm) (x y : F64) (h : F64.intExponent y = true) :
    Pow L x y = Pow L' x y := by
  simp only [F64.intExponent, Bool.and_eq_true, Bool.not_eq_true'] at h
  obtain ⟨⟨h1, h2⟩, h3⟩ := h
  simp [Pow, h1, h2, h3]

/-- The iteration bound of `powLoop` is never reached when `i < 2^fuel`: more fuel gives
the same result, so for an `int64` counter the loop always ends by `i = 0` or by `break`. -/
theorem powLoop_fuel (k : Nat) : ∀ (fuel i : Nat) (x1 : F64) (xe : Int) (a1 : F64) (ae : Int),
    i < 2 ^ fuel → powLoop (fuel + k) i x1 xe a1 ae = powLoop fuel i x1 xe a1 ae := by
  intro fuel
  induction fuel with
  | zero =>
    intro i x1 xe a1 ae hi
    have h0 : i = 0 := by simpa using hi
    subst h0
    cases k with
    | zero => rfl
    | succ k => simp [powLoop]
  | succ f ih =>
    intro i x1 xe a1 ae hi
    have e : f + 1 + k = (f + k) + 1 := by omega
    rw [e]
    simp only [powLoop]
    by_cases h0 : i = 0
    · simp [h0]
    · simp only [h0, if_false]
      by_cases hov : xe < -4096 ∨ 4096 < xe
      · simp [hov]
      · simp only [hov, if_false]
        apply ih
        rw [pow_succ] at hi
        omega

section

open F64

theorem pow_two_64_none : Pow Libm.none (ofNat 2) (ofNat 64) = fin false (2 ^ 52) 12 := by decide
theorem intExponent_64 : intExponent (ofNat 64) = true := by decide

end

namespace F64

/-- Rounding a value that fits in 53 bits, in the normal range, is exact. -/
theorem round_fits (m : Nat) (e : Int) (hm : m ≠ 0) (hL : bitLen m ≤ 53)
    (h1 : -1074 ≤ e + (bitLen m : Int) - 53) (h2 : e + (bitLen m : Int) ≤ 1023) :
    round false m e = fin false (m * 2 ^ (53 - bitLen m)) (e - ((53 - bitLen m : Nat) : Int)) := by
  unfold round
  simp only [hm, if_false]
  have ht : max (e + (bitLen m : Int) - 53) (-1074) = e - ((53 - bitLen m : Nat) : Int) := by
    omega
  rw [ht, if_pos (by omega), if_neg (by omega)]
  have hk : (e - (e - ((53 - bitLen m : Nat) : Int))).toNat = 53 - bitLen m := by omega
  rw [hk]

/-- Rounding a longer value, in the normal range, moves it by at most half a unit in the
last place, that is by at most `2^-53` of the value. -/
theorem round_long (m : Nat) (e : Int) (hL : 53 < bitLen m)
    (h1 : -1074 ≤ e + (bitLen m : Int) - 53) (h2 : e + (bitLen m : Int) ≤ 1023) :
    ∃ q k : Nat, round false m e = fin false q (e + k)
      ∧ (2 ^ 53 - 1) * m ≤ 2 ^ 53 * (q * 2 ^ k)
      ∧ 2 ^ 53 * (q * 2 ^ k) ≤ (2 ^ 53 + 1) * m := by
  have hm : m ≠ 0 := by
    intro h
    rw [h, bitLen_zero] at hL
    omega
  obtain ⟨a, b, c⟩ := bitLen_spec hm
  unfold round
  simp only [hm, if_false]
  generalize hLL : bitLen m = L at a b c hL h1 h2
  have ht : max (e + (L : Int) - 53) (-1074) = e + ((L - 53 : Nat) : Int) := by omega
  rw [ht, if_neg (by omega)]
  have hsh : (e + ((L - 53 : Nat) : Int) - e).toNat = L - 53 := by omega
  rw [hsh]
  generalize hs : L - 53 = sh
  have hsh1 : 1 ≤ sh := by omega
  have hP : 2 ^ sh = 2 * 2 ^ (sh - 1) := by
    rw [← pow_succ']
    congr 1
    omega
  have hlow : 2 ^ 53 * 2 ^ (sh - 1) ≤ m := by
    rw [← pow_add]
    have : 53 + (sh - 1) = L - 1 := by omega
    rw [this]
    exact a
  have hdm := Nat.div_add_mod m (2 ^ sh)
  have hr := Nat.mod_lt m (Nat.two_pow_pos sh)
  have hq53 : m / 2 ^ sh < 2 ^ 53 := by
    rw [Nat.div_lt_iff_lt_mul (Nat.two_pow_pos _), ← pow_add]
    exact lt_of_lt_of_le b (Nat.pow_le_pow_right (by norm_num) (by omega))
  generalize m / 2 ^ sh = q0 at hdm hq53 ⊢
  generalize m % 2 ^ sh = r at hdm hr ⊢
  generalize hH : 2 ^ (sh - 1) = H at hP hlow ⊢
  generalize hPP : 2 ^ sh = P at hP hdm hr ⊢
  have key : ∀ q1 : Nat, (q1 = q0 ∧ r ≤ H ∨ q1 = q0 + 1 ∧ H ≤ r) →
      ∃ q k : Nat,
        (if 971 < (if q1 = 2 ^ 53 then e + ((sh : Nat) : Int) + 1 else e + ((sh : Nat) : Int))
          then inf false
          else fin false (if q1 = 2 ^ 53 then 2 ^ 52 else q1)
            (if q1 = 2 ^ 53 then e + ((sh : Nat) : Int) + 1 else e + ((sh : Nat) : Int)))
          = fin false q (e + k)
        ∧ (2 ^ 53 - 1) * m ≤ 2 ^ 53 * (q * 2 ^ k)
        ∧ 2 ^ 53 * (q * 2 ^ k) ≤ (2 ^ 53 + 1) * m := by
    intro q1 hq1
    have hval : (2 ^ 53 - 1) * m ≤ 2 ^ 53 * (q1 * P) ∧ 2 ^ 53 * (q1 * P) ≤ (2 ^ 53 + 1) * m := by
      rcases hq1 with ⟨h, hr1⟩ | ⟨h, hr1⟩
      · subst h
        have e1 : P * q1 = q1 * P := Nat.mul_comm _ _
        generalize q1 * P = A at *
        constructor <;> omega
      · subst h
        have e1 : (q0 + 1) * P = P * q0 + P := by ring
        rw [e1]
        generalize P * q0 = A at *
        constructor <;> omega
    by_cases h53 : q1 = 2 ^ 53
    · simp only [h53, if_true]
      refine ⟨2 ^ 52, sh + 1, ?_, ?_⟩
      · rw [if_neg (by omega)]
        congr 1
        push_cast
        ring
      · have e2 : 2 ^ 52 * 2 ^ (sh + 1) = q1 * P := by
          rw [h53, ← hPP, pow_succ]
          ring
        rw [e2]
        exact hval
    · simp only [h53, if_false]
      refine ⟨q1, sh, ?_, ?_⟩
      · rw [if_neg (by omega)]
      · rw [hPP]
        exact hval
  by_cases hup : H < r ∨ r = H ∧ q0 % 2 = 1
  · simp only [hup, if_true]
    exact key (q0 + 1) (Or.inr ⟨rfl, by omega⟩)
  · simp only [hup, if_false]
    exact key q0 (Or.inl ⟨rfl, by omega⟩)

theorem two_zpow_pos (e : Int) : (0 : ℚ) < 2 ^ e := zpow_pos (by norm_num) e

theorem round_near (m : Nat) (e : Int)
    (h : m = 0 ∨ ((2 : ℚ) ^ (-1021 : Int) ≤ (m : ℚ) * 2 ^ e ∧ (m : ℚ) * 2 ^ e < 2 ^ (1023 : Int))) :
    ∃ (q : Nat) (t : Int), round false m e = fin false q t
      ∧ (1 - eps) * ((m : ℚ) * 2 ^ e) ≤ (q : ℚ) * 2 ^ t
      ∧ (q : ℚ) * 2 ^ t ≤ (1 + eps) * ((m : ℚ) * 2 ^ e) := by
  by_cases hm : m = 0
  · subst hm
    exact ⟨0, -1074, by simp [round], by simp, by simp⟩
  · rcases h with h | ⟨hlo, hhi⟩
    · exact absurd h hm
    · obtain ⟨a, b, c⟩ := bitLen_spec hm
      have hpe := two_zpow_pos e
      have hV : (0 : ℚ) ≤ (m : ℚ) * 2 ^ e := by positivity
      have bq : (m : ℚ) < 2 ^ (bitLen m) := by exact_mod_cast b
      have aq : (2 : ℚ) ^ (bitLen m - 1) ≤ m := by exact_mod_cast a
      have h1 : -1074 ≤ e + (bitLen m : Int) - 53 := by
        have : (2 : ℚ) ^ (-1021 : Int) < 2 ^ ((bitLen m : Int) + e) := by
          rw [zpow_add₀ (by norm_num), zpow_natCast]
          exact lt_of_le_of_lt hlo (mul_lt_mul_of_pos_right bq hpe)
        rw [zpow_lt_zpow_iff_right₀ (by norm_num)] at this
        omega
      have h2 : e + (bitLen m : Int) ≤ 1023 := by
        have : (2 : ℚ) ^ (((bitLen m - 1 : Nat) : Int) + e) < 2 ^ (1023 : Int) := by
          rw [zpow_add₀ (by norm_num), zpow_natCast]
          exact lt_of_le_of_lt (mul_le_mul_of_nonneg_right aq hpe.le) hhi
        rw [zpow_lt_zpow_iff_right₀ (by norm_num)] at this
        omega
      have he : (0 : ℚ) ≤ eps := by unfold eps; positivity
      by_cases hL : bitLen m ≤ 53
      · refine ⟨_, _, round_fits m e hm hL h1 h2, ?_⟩
        have hv : ((m * 2 ^ (53 - bitLen m) : Nat) : ℚ) * 2 ^ (e - ((53 - bitLen m : Nat) : Int))
            = (m : ℚ) * 2 ^ e := by
          rw [zpow_sub₀ (by norm_num), zpow_natCast]
          push_cast
          field_simp
          ring
        rw [hv]
        constructor <;> nlinarith
      · obtain ⟨q, k, hr, hlo2, hhi2⟩ := round_long m e (by omega) h1 h2
        refine ⟨q, _, hr, ?_⟩
        have hv : (q : ℚ) * 2 ^ (e + (k : Int)) = ((q * 2 ^ k : Nat) : ℚ) * 2 ^ e := by
          rw [zpow_add₀ (by norm_num), zpow_natCast]
          push_cast
          ring
        rw [hv]
        have lq : ((2 : ℚ) ^ 53 - 1) * m ≤ 2 ^ 53 * ((q * 2 ^ k : Nat) : ℚ) := by
          have h : (((2 ^ 53 - 1) * m : Nat) : ℚ) ≤ ((2 ^ 53 * (q * 2 ^ k) : Nat) : ℚ) := by
            exact_mod_cast hlo2
          push_cast at h ⊢
          norm_num at h ⊢
          linarith
        have uq : (2 : ℚ) ^ 53 * ((q * 2 ^ k : Nat) : ℚ) ≤ (2 ^ 53 + 1) * m := by
          have h : ((2 ^ 53 * (q * 2 ^ k) : Nat) : ℚ) ≤ (((2 ^ 53 + 1) * m : Nat) : ℚ) := by
            exact_mod_cast hhi2
          push_cast at h ⊢
          norm_num at h ⊢
          linarith
        have e1 : (1 - eps) * ((m : ℚ) * 2 ^ e) = ((2 ^ 53 - 1) * m) * (2 ^ e / 2 ^ 53) := by
          unfold eps
          field_simp
          ring
        have e2 : (1 + eps) * ((m : ℚ) * 2 ^ e) = ((2 ^ 53 + 1) * m) * (2 ^ e / 2 ^ 53) := by
          unfold eps
          field_simp
          ring
        have e3 : ((q * 2 ^ k : Nat) : ℚ) * 2 ^ e
            = (2 ^ 53 * ((q * 2 ^ k : Nat) : ℚ)) * (2 ^ e / 2 ^ 53) := by
          field_simp
          ring
        have hpos : (0 : ℚ) ≤ 2 ^ e / 2 ^ 53 := by positivity
        rw [e1, e2, e3]
        exact ⟨mul_le_mul_of_nonneg_right lq hpos, mul_le_mul_of_nonneg_right uq hpos⟩

theorem eps_nonneg : (0 : ℚ) ≤ eps := by unfold eps; positivity

theorem one_sub_eps_nonneg : (0 : ℚ) ≤ 1 - eps := by unfold eps; norm_num

theorem Near.mono {x : F64} {V lo hi lo' hi' : ℚ} (h : Near x V lo hi) (hV : 0 ≤ V)
    (hl : lo' ≤ lo) (hh : hi ≤ hi') : Near x V lo' hi' := by
  obtain ⟨m, e, hx, h1, h2⟩ := h
  exact ⟨m, e, hx, le_trans (mul_le_mul_of_nonneg_right hl hV) h1,
    le_trans h2 (mul_le_mul_of_nonneg_right hh hV)⟩

/-- A sufficient condition for the normal range of binary64. -/
theorem in_range {l h V : ℚ} (hl : 1 / 2 ≤ l) (hh : h ≤ 2)
    (hV1 : (2 : ℚ) ^ (-1020 : Int) ≤ V) (hV2 : V ≤ (2 : ℚ) ^ (1021 : Int)) :
    (2 : ℚ) ^ (-1021 : Int) ≤ l * V ∧ h * V < (2 : ℚ) ^ (1023 : Int) := by
  have p1 : (0 : ℚ) < 2 ^ (-1020 : Int) := two_zpow_pos _
  have e1 : (2 : ℚ) ^ (-1021 : Int) = (1 / 2) * 2 ^ (-1020 : Int) := by
    rw [show (-1021 : Int) = -1 + -1020 by norm_num, zpow_add₀ (by norm_num)]
    norm_num
  have e2 : (2 : ℚ) ^ (1023 : Int) = 4 * 2 ^ (1021 : Int) := by
    rw [show (1023 : Int) = 2 + 1021 by norm_num, zpow_add₀ (by norm_num)]
    norm_num
  have p2 : (0 : ℚ) < 2 ^ (1021 : Int) := two_zpow_pos _
  have hV0 : 0 ≤ V := le_trans p1.le hV1
  rw [e1, e2]
  constructor
  · calc (1 / 2 : ℚ) * 2 ^ (-1020 : Int) ≤ (1 / 2) * V := by
          exact mul_le_mul_of_nonneg_left hV1 (by norm_num)
      _ ≤ l * V := mul_le_mul_of_nonneg_right hl hV0
  · calc h * V ≤ 2 * V := mul_le_mul_of_nonneg_right hh hV0
      _ ≤ 2 * 2 ^ (1021 : Int) := mul_le_mul_of_nonneg_left hV2 (by norm_num)
      _ < 4 * 2 ^ (1021 : Int) := by linarith

theorem near_round (m : Nat) (e : Int) (V lo hi : ℚ)
    (hv1 : lo * V ≤ (m : ℚ) * 2 ^ e) (hv2 : (m : ℚ) * 2 ^ e ≤ hi * V)
    (hr : V = 0 ∨ ((2 : ℚ) ^ (-1021 : Int) ≤ lo * V ∧ hi * V < (2 : ℚ) ^ (1023 : Int))) :
    Near (round false m e) V ((1 - eps) * lo) ((1 + eps) * hi) := by
  have hpe := two_zpow_pos e
  have hv0 : (0 : ℚ) ≤ (m : ℚ) * 2 ^ e := by positivity
  have hrange : m = 0 ∨ ((2 : ℚ) ^ (-1021 : Int) ≤ (m : ℚ) * 2 ^ e
      ∧ (m : ℚ) * 2 ^ e < 2 ^ (1023 : Int)) := by
    rcases hr with h0 | ⟨h1, h2⟩
    · left
      rw [h0, mul_zero] at hv2
      have : (m : ℚ) * 2 ^ e = 0 := le_antisymm hv2 hv0
      rcases mul_eq_zero.1 this with h | h
      · exact_mod_cast h
      · exact absurd h hpe.ne'
    · right
      exact ⟨le_trans h1 hv1, lt_of_le_of_lt hv2 h2⟩
  obtain ⟨q, t, hq, b1, b2⟩ := round_near m e hrange
  refine ⟨q, t, hq, ?_, ?_⟩
  · calc (1 - eps) * lo * V = (1 - eps) * (lo * V) := by ring
      _ ≤ (1 - eps) * ((m : ℚ) * 2 ^ e) := mul_le_mul_of_nonneg_left hv1 one_sub_eps_nonneg
      _ ≤ (q : ℚ) * 2 ^ t := b1
  · calc (q : ℚ) * 2 ^ t ≤ (1 + eps) * ((m : ℚ) * 2 ^ e) := b2
      _ ≤ (1 + eps) * (hi * V) := mul_le_mul_of_nonneg_left hv2 (by have := eps_nonneg; linarith)
      _ = (1 + eps) * hi * V := by ring

theorem near_ofNat {n : Nat} (h : n < 2 ^ 64) : Near (ofNat n) n (1 - eps) (1 + eps) := by
  have := near_round n 0 n 1 1 (by simp) (by simp) (by
      by_cases h0 : n = 0
      · left; exact_mod_cast h0
      · right
        have h1 : (1 : ℚ) ≤ n := by exact_mod_cast Nat.one_le_iff_ne_zero.2 h0
        have h2 : (n : ℚ) < 2 ^ 64 := by exact_mod_cast h
        have e1 : (2 : ℚ) ^ (-1021 : Int) ≤ 1 := by
          have := zpow_le_zpow_right₀ (show (1 : ℚ) ≤ 2 by norm_num)
            (show (-1021 : Int) ≤ 0 by norm_num)
          simpa using this
        have e2 : (2 : ℚ) ^ 64 ≤ 2 ^ (1023 : Int) := by
          have := zpow_le_zpow_right₀ (show (1 : ℚ) ≤ 2 by norm_num)
            (show ((64 : Nat) : Int) ≤ 1023 by norm_num)
          rwa [zpow_natCast] at this
        constructor <;> linarith)
  simpa [ofNat] using this

theorem near_mul {x y : F64} {X Y lx hx ly hy : ℚ} (h1 : Near x X lx hx) (h2 : Near y Y ly hy)
    (hY : 0 ≤ Y) (hly : 0 ≤ ly)
    (hr : X * Y = 0 ∨ ((2 : ℚ) ^ (-1021 : Int) ≤ lx * ly * (X * Y)
      ∧ hx * hy * (X * Y) < (2 : ℚ) ^ (1023 : Int))) :
    Near (mul x y) (X * Y) ((1 - eps) * (lx * ly)) ((1 + eps) * (hx * hy)) := by
  obtain ⟨m1, e1, rfl, a1, b1⟩ := h1
  obtain ⟨m2, e2, rfl, a2, b2⟩ := h2
  simp only [mul, Bool.xor_false]
  have p1 := two_zpow_pos e1
  have p2 := two_zpow_pos e2
  have v1 : (0 : ℚ) ≤ (m1 : ℚ) * 2 ^ e1 := by positivity
  have v2 : (0 : ℚ) ≤ (m2 : ℚ) * 2 ^ e2 := by positivity
  have hv : ((m1 * m2 : Nat) : ℚ) * 2 ^ (e1 + e2) = ((m1 : ℚ) * 2 ^ e1) * ((m2 : ℚ) * 2 ^ e2) := by
    rw [zpow_add₀ (by norm_num)]
    push_cast
    ring
  apply near_round
  · rw [hv]
    calc lx * ly * (X * Y) = (lx * X) * (ly * Y) := by ring
      _ ≤ ((m1 : ℚ) * 2 ^ e1) * ((m2 : ℚ) * 2 ^ e2) :=
        mul_le_mul a1 a2 (mul_nonneg hly hY) v1
  · rw [hv]
    calc ((m1 : ℚ) * 2 ^ e1) * ((m2 : ℚ) * 2 ^ e2) ≤ (hx * X) * (hy * Y) :=
        mul_le_mul b1 b2 v2 (le_trans v1 b1)
      _ = hx * hy * (X * Y) := by ring
  · exact hr

theorem near_add {x y : F64} {X Y lo hi : ℚ} (h1 : Near x X lo hi) (h2 : Near y Y lo hi)
    (hr : X + Y = 0 ∨ ((2 : ℚ) ^ (-1021 : Int) ≤ lo * (X + Y)
      ∧ hi * (X + Y) < (2 : ℚ) ^ (1023 : Int))) :
    Near (add x y) (X + Y) ((1 - eps) * lo) ((1 + eps) * hi) := by
  obtain ⟨m1, e1, rfl, a1, b1⟩ := h1
  obtain ⟨m2, e2, rfl, a2, b2⟩ := h2
  simp only [add, scaled, Bool.false_eq_true, if_false, one_mul, Bool.and_self]
  have hb1 : min e1 e2 ≤ e1 := min_le_left _ _
  have hb2 : min e1 e2 ≤ e2 := min_le_right _ _
  generalize min e1 e2 = b at hb1 hb2
  have hz : ((m1 * 2 ^ (e1 - b).toNat : Nat) : Int) + ((m2 * 2 ^ (e2 - b).toNat : Nat) : Int)
      = ((m1 * 2 ^ (e1 - b).toNat + m2 * 2 ^ (e2 - b).toNat : Nat) : Int) := by
    push_cast
    rfl
  rw [hz]
  generalize hN : m1 * 2 ^ (e1 - b).toNat + m2 * 2 ^ (e2 - b).toNat = N
  have hpb := two_zpow_pos b
  have hval : (N : ℚ) * 2 ^ b = (m1 : ℚ) * 2 ^ e1 + (m2 : ℚ) * 2 ^ e2 := by
    have k1 : (2 : ℚ) ^ e1 = 2 ^ (e1 - b).toNat * 2 ^ b := by
      rw [← zpow_natCast, ← zpow_add₀ (by norm_num)]
      congr 1
      omega
    have k2 : (2 : ℚ) ^ e2 = 2 ^ (e2 - b).toNat * 2 ^ b := by
      rw [← zpow_natCast, ← zpow_add₀ (by norm_num)]
      congr 1
      omega
    rw [← hN, k1, k2]
    push_cast
    ring
  have hc1 : lo * (X + Y) ≤ (N : ℚ) * 2 ^ b := by
    rw [hval]
    linarith
  have hc2 : (N : ℚ) * 2 ^ b ≤ hi * (X + Y) := by
    rw [hval]
    linarith
  have hn := near_round _ _ _ _ _ hc1 hc2 hr
  by_cases h0 : N = 0
  · subst h0
    simpa [round] using hn
  · have hne : ((N : Nat) : Int) ≠ 0 := by exact_mod_cast h0
    have hlt : ¬ ((N : Nat) : Int) < 0 := by omega
    simpa [hne, hlt] using hn

theorem near_two64 : Near (fin false (2 ^ 52) 12) ((2 : ℚ) ^ 64) 1 1 := by
  refine ⟨2 ^ 52, 12, rfl, ?_, ?_⟩ <;> norm_num

theorem near_div_two64 {x : F64} {X lo hi : ℚ} (h1 : Near x X lo hi)
    (hr : X / 2 ^ 64 = 0 ∨ ((2 : ℚ) ^ (-1021 : Int) ≤ lo * (X / 2 ^ 64)
      ∧ hi * (X / 2 ^ 64) < (2 : ℚ) ^ (1023 : Int))) :
    Near (div x (fin false (2 ^ 52) 12)) (X / 2 ^ 64) ((1 - eps) * lo) ((1 + eps) * hi) := by
  obtain ⟨m, e, rfl, a1, b1⟩ := h1
  have hpe := two_zpow_pos e
  have hval : ((2 * (m * 2 ^ 76) : Nat) : ℚ) * 2 ^ (e - 12 - 129) = ((m : ℚ) * 2 ^ e) / 2 ^ 64 := by
    rw [show e - 12 - 129 = e + (-141 : Int) by ring, zpow_add₀ (by norm_num)]
    push_cast
    norm_num
    ring
  have hc1 : lo * (X / 2 ^ 64) ≤ ((2 * (m * 2 ^ 76) : Nat) : ℚ) * 2 ^ (e - 12 - 129) := by
    rw [hval, ← mul_div_assoc]
    exact div_le_div_of_nonneg_right a1 (by positivity)
  have hc2 : ((2 * (m * 2 ^ 76) : Nat) : ℚ) * 2 ^ (e - 12 - 129) ≤ hi * (X / 2 ^ 64) := by
    rw [hval, ← mul_div_assoc]
    exact div_le_div_of_nonneg_right b1 (by positivity)
  have hn := near_round _ _ _ _ _ hc1 hc2 hr
  have hq : m * 2 ^ 128 / 2 ^ 52 = m * 2 ^ 76 := by
    rw [show (2 : Nat) ^ 128 = 2 ^ 76 * 2 ^ 52 by norm_num, ← Nat.mul_assoc]
    exact Nat.mul_div_cancel _ (by norm_num)
  have hmod : m * 2 ^ 128 % 2 ^ 52 = 0 := by
    rw [show (2 : Nat) ^ 128 = 2 ^ 76 * 2 ^ 52 by norm_num, ← Nat.mul_assoc]
    exact Nat.mul_mod_left _ _
  by_cases h0 : m = 0
  · subst h0
    simpa [div, round] using hn
  · simp only [div, Bool.xor_false, h0, if_false, hq, hmod, if_true, Nat.add_zero]
    rw [if_neg (by norm_num)]
    exact hn

theorem zpow_split (b : ℚ) (hb : b ≠ 0) (e : Int) :
    b ^ e = b ^ e.toNat / b ^ (-e).toNat := by
  have he : e = (e.toNat : Int) - ((-e).toNat : Int) := by omega
  conv_lhs => rw [he]
  rw [zpow_sub₀ hb, zpow_natCast, zpow_natCast]

theorem scaleClose_sound {k : Int} {x : F64} (h : scaleClose k x = true) :
    isPosFinite x = true ∧ Near x ((10 : ℚ) ^ k) (1 - 1 / 2 ^ 50) (1 + 1 / 2 ^ 50) := by
  cases x with
  | nan => simp [scaleClose] at h
  | inf s => simp [scaleClose] at h
  | fin s m e =>
    cases s with
    | true => simp [scaleClose] at h
    | false =>
      simp only [scaleClose, Bool.and_eq_true, decide_eq_true_eq] at h
      obtain ⟨⟨hm, h1⟩, h2⟩ := h
      refine ⟨by simp [isPosFinite, hm], m, e, rfl, ?_, ?_⟩
      · rw [zpow_split 2 (by norm_num) e, zpow_split 10 (by norm_num) k]
        have c1 : (((2 ^ 50 - 1) * (2 ^ (-e).toNat * 10 ^ k.toNat) : Nat) : ℚ)
            ≤ ((2 ^ 50 * (m * 2 ^ e.toNat * 10 ^ (-k).toNat) : Nat) : ℚ) := by
          exact_mod_cast h1
        push_cast at c1
        have hP : (0 : ℚ) < 2 ^ e.toNat := by positivity
        have hQ : (0 : ℚ) < 2 ^ (-e).toNat := by positivity
        have hR : (0 : ℚ) < 10 ^ k.toNat := by positivity
        have hS : (0 : ℚ) < 10 ^ (-k).toNat := by positivity
        generalize (2 : ℚ) ^ e.toNat = P at c1 hP ⊢
        generalize (2 : ℚ) ^ (-e).toNat = Q at c1 hQ ⊢
        generalize (10 : ℚ) ^ k.toNat = R at c1 hR ⊢
        generalize (10 : ℚ) ^ (-k).toNat = S at c1 hS ⊢
        rw [mul_div_assoc', mul_div_assoc', div_le_div_iff₀ hS hQ]
        norm_num
        linarith
      · rw [zpow_split 2 (by norm_num) e, zpow_split 10 (by norm_num) k]
        have c2 : ((2 ^ 50 * (m * 2 ^ e.toNat * 10 ^ (-k).toNat) : Nat) : ℚ)
            ≤ (((2 ^ 50 + 1) * (2 ^ (-e).toNat * 10 ^ k.toNat) : Nat) : ℚ) := by
          exact_mod_cast h2
        push_cast at c2
        have hP : (0 : ℚ) < 2 ^ e.toNat := by positivity
        have hQ : (0 : ℚ) < 2 ^ (-e).toNat := by positivity
        have hR : (0 : ℚ) < 10 ^ k.toNat := by positivity
        have hS : (0 : ℚ) < 10 ^ (-k).toNat := by positivity
        generalize (2 : ℚ) ^ e.toNat = P at c2 hP ⊢
        generalize (2 : ℚ) ^ (-e).toNat = Q at c2 hQ ⊢
        generalize (10 : ℚ) ^ k.toNat = R at c2 hR ⊢
        generalize (10 : ℚ) ^ (-k).toNat = S at c2 hS ⊢
        rw [mul_div_assoc', mul_div_assoc', div_le_div_iff₀ hQ hS]
        norm_num
        linarith

end F64

theorem decimal_scale_table : ∀ k : Fin 511,
    F64.intExponent (F64.ofInt ((k.val : Int) - 255)) = true ∧
    F64.scaleClose ((k.val : Int) - 255)
      (Pow Libm.none (F64.ofNat 10) (F64.ofInt ((k.val : Int) - 255))) = true := by
  decide!

namespace Decoder

theorem pure_eq_fixed {α : Type} (a : α) : (Pure.pure a : Decoder α) = fixed 0 (fun _ => a) := by
  funext buf
  simp [Pure.pure, Decoder.pure, fixed]

theorem fixed_bind_fixed {α β : Type} (w w' : Nat) (f : List Byte → α)
    (g : α → List Byte → β) :
    (fixed w f >>= fun a => fixed w' (g a)) =
      fixed (w + w') (fun bs => g (f (bs.take w)) (bs.drop w)) := by
  funext buf
  simp only [Bind.bind, Decoder.bind, fixed]
  by_cases h1 : buf.length < w
  · have h2 : buf.length < w + w' := by omega
    simp [h1, h2]
  · simp only [h1, if_false, List.length_drop]
    by_cases h2 : buf.length < w + w'
    · have h3 : buf.length - w < w' := by omega
      simp [h2, h3]
    · have h3 : ¬ buf.length - w < w' := by omega
      simp only [h2, h3, if_false, List.drop_drop, List.take_take, List.drop_take]
      have e1 : min w (w + w') = w := by omega
      have e2 : w + w' - w = w' := by omega
      have e3 : w' + w = w + w' := by omega
      rw [e1, e2]

end Decoder

theorem readBytes_eq (n : Nat) : readBytes n = Decoder.fixed n (fun bs => bs) := rfl

section

open Decoder

theorem fixed_congr {α : Type} (w : Nat) (f g : List Byte → α)
    (h : ∀ bs, bs.length = w → f bs = g bs) : fixed w f = fixed w g := by
  funext buf
  unfold fixed
  split_ifs with hl
  · rfl
  · rw [h]
    simp
    omega

theorem readUint8_eq : readUint8 = fixed 1 leNat := by
  simp only [readUint8, readBytes_eq, pure_eq_fixed, fixed_bind_fixed]
  apply fixed_congr
  intro bs h
  simp [Uint128.ofBytes, List.take_of_length_le h.le]

theorem readUint16_eq : readUint16 = fixed 2 leNat := by
  simp only [readUint16, readBytes_eq, pure_eq_fixed, fixed_bind_fixed]
  apply fixed_congr
  intro bs h
  simp [Uint128.ofBytes, List.take_of_length_le h.le]

theorem readInt32_eq : readInt32 = fixed 4 (fun bs => toInt32 (leNat bs)) := by
  simp only [readInt32, readBytes_eq, pure_eq_fixed, fixed_bind_fixed]
  apply fixed_congr
  intro bs h
  simp [Uint128.ofBytes, List.take_of_length_le h.le]

theorem readUint64_eq : readUint64 = fixed 8 leNat := by
  simp only [readUint64, readBytes_eq, pure_eq_fixed, fixed_bind_fixed]
  apply fixed_congr
  intro bs h
  simp [Uint128.ofBytes, List.take_of_length_le h.le]

theorem readUint128_eq : readUint128 = fixed 16 Uint128.ofBytes := by
  simp only [readUint128, readBytes_eq, pure_eq_fixed, fixed_bind_fixed]
  apply fixed_congr
  intro bs h
  simp [Uint128.ofBytes, List.take_of_length_le h.le]

theorem readPublicKey_eq : readPublicKey = fixed 32 (fun bs => bs) := rfl

theorem decodeRewardInfo_eq : decodeRewardInfo = fixed 169 RewardInfo.ofBytes := by
  simp only [decodeRewardInfo, readUint8_eq, readUint64_eq, readUint128_eq, readPublicKey_eq,
    pure_eq_fixed, fixed_bind_fixed]
  apply fixed_congr
  intro bs hbs
  simp [RewardInfo.ofBytes, slice, List.drop_drop, List.take_drop]

theorem chunks_take (n w : Nat) : ∀ (bs : List Byte) (k : Nat), n * w ≤ k →
    chunks n w (bs.take k) = chunks n w bs := by
  induction n with
  | zero => intro bs k _; rfl
  | succ n ih =>
    intro bs k hk
    have h1 : w ≤ k := by
      have : (n + 1) * w = n * w + w := by ring
      omega
    simp only [chunks, List.take_take, min_eq_left h1, List.drop_take]
    rw [ih]
    have : (n + 1) * w = n * w + w := by ring
    omega

theorem readArray_fixed {α : Type} (w : Nat) (f : List Byte → α) (n : Nat) :
    readArray n (fixed w f) = fixed (n * w) (fun bs => (chunks n w bs).map f) := by
  induction n with
  | zero =>
    simp only [readArray, pure_eq_fixed, Nat.zero_mul]
    rfl
  | succ n ih =>
    simp only [readArray, ih, pure_eq_fixed, fixed_bind_fixed]
    have e : w + (n * w + 0) = (n + 1) * w := by ring
    rw [e]
    apply fixed_congr
    intro bs _
    simp only [chunks, List.map_cons]
    rw [chunks_take _ _ _ _ (le_refl _)]

theorem decodePoolState_eq : decodePoolState = fixed 1544 PoolState.ofBytes := by
  simp only [decodePoolState, decodeRewardInfo_eq, readBytes_eq, readUint8_eq, readUint16_eq,
    readInt32_eq, readUint64_eq, readUint128_eq, readPublicKey_eq, readArray_fixed,
    pure_eq_fixed, fixed_bind_fixed]
  apply fixed_congr
  intro bs hbs
  simp [PoolState.ofBytes, slice, List.drop_drop, List.take_drop]

theorem leNat_lt : ∀ bs : List Byte, leNat bs < 256 ^ bs.length
  | [] => by simp [leNat]
  | b :: bs => by
    have ih := leNat_lt bs
    have hb := b.isLt
    simp only [leNat, List.length_cons, pow_succ]
    omega

theorem leBytes_leNat : ∀ (bs : List Byte) (n : Nat), bs.length = n → leBytes n (leNat bs) = bs
  | [], n, h => by
    subst h
    rfl
  | b :: bs, n, h => by
    subst h
    have hb := b.isLt
    have h1 : (b.val + 256 * leNat bs) % 256 = b.val := by omega
    have h2 : (b.val + 256 * leNat bs) / 256 = leNat bs := by omega
    simp only [leNat, List.length_cons, leBytes, h1, h2]
    rw [leBytes_leNat bs _ rfl]
    congr 1
    apply Fin.ext
    simp [Fin.ofNat]

theorem ofInt32_toInt32 {v : Nat} (h : v < 2 ^ 32) : ofInt32 (toInt32 v) = v := by
  unfold ofInt32 toInt32
  split_ifs <;> omega

theorem length_slice {bs : List Byte} {o w : Nat} (h : o + w ≤ bs.length) :
    (slice bs o w).length = w := by
  simp [slice]
  omega

theorem slice_append_drop (bs : List Byte) (o w o' : Nat) (h : o + w = o') :
    slice bs o w ++ bs.drop o' = bs.drop o := by
  subst h
  unfold slice
  rw [← List.drop_drop]
  exact List.take_append_drop _ _

theorem slice_eq_drop (bs : List Byte) (o w : Nat) (h : bs.length ≤ o + w) :
    slice bs o w = bs.drop o := by
  unfold slice
  apply List.take_of_length_le
  simp
  omega

theorem encodeUint128_ofBytes {bs : List Byte} (h : bs.length = 16) :
    encodeUint128 (Uint128.ofBytes bs) = bs := by
  unfold encodeUint128 Uint128.ofBytes
  simp only []
  rw [leBytes_leNat _ _ (by simp [h]), leBytes_leNat _ _ (by simp [h])]
  exact List.take_append_drop _ _

theorem encodeRewardInfo_ofBytes {bs : List Byte} (h : bs.length = 169) :
    encodeRewardInfo (RewardInfo.ofBytes bs) = bs := by
  have hl : ∀ o w, o + w ≤ 169 → (slice bs o w).length = w :=
    fun o w hw => length_slice (by omega)
  unfold encodeRewardInfo RewardInfo.ofBytes
  simp only []
  rw [leBytes_leNat _ _ (hl 0 1 (by norm_num)), leBytes_leNat _ _ (hl 1 8 (by norm_num)),
    leBytes_leNat _ _ (hl 9 8 (by norm_num)), leBytes_leNat _ _ (hl 17 8 (by norm_num)),
    encodeUint128_ofBytes (hl 25 16 (by norm_num)), leBytes_leNat _ _ (hl 41 8 (by norm_num)),
    leBytes_leNat _ _ (hl 49 8 (by norm_num)), encodeUint128_ofBytes (hl 153 16 (by norm_num))]
  rw [slice_eq_drop bs 153 16 (by omega)]
  simp only [slice_append_drop bs _ _ _ (by norm_num : 121 + 32 = 153),
    slice_append_drop bs _ _ _ (by norm_num : 89 + 32 = 121),
    slice_append_drop bs _ _ _ (by norm_num : 57 + 32 = 89),
    slice_append_drop bs _ _ _ (by norm_num : 49 + 8 = 57),
    slice_append_drop bs _ _ _ (by norm_num : 41 + 8 = 49),
    slice_append_drop bs _ _ _ (by norm_num : 25 + 16 = 41),
    slice_append_drop bs _ _ _ (by norm_num : 17 + 8 = 25),
    slice_append_drop bs _ _ _ (by norm_num : 9 + 8 = 17),
    slice_append_drop bs _ _ _ (by norm_num : 1 + 8 = 9),
    slice_append_drop bs _ _ _ (by norm_num : 0 + 1 = 1), List.drop_zero]

theorem join_chunks {α : Type} (w : Nat) (f : List Byte → α) (enc : α → List Byte)
    (h : ∀ c : List Byte, c.length = w → enc (f c) = c) :
    ∀ (n : Nat) (bs : List Byte), n * w ≤ bs.length →
      (((chunks n w bs).map f).map enc).flatten = bs.take (n * w) := by
  intro n
  induction n with
  | zero => intro bs _; simp [chunks]
  | succ n ih =>
    intro bs hbs
    have e : (n + 1) * w = w + n * w := by ring
    rw [e] at hbs
    simp only [chunks, List.map_cons, List.flatten_cons]
    rw [h _ (by simp; omega), ih _ (by simp; omega), e, List.take_add]

theorem leBytes_slice {bs : List Byte} {o w : Nat} (h : o + w ≤ bs.length) :
    leBytes w (leNat (slice bs o w)) = slice bs o w :=
  leBytes_leNat _ _ (length_slice h)

theorem encodeUint128_slice {bs : List Byte} {o : Nat} (h : o + 16 ≤ bs.length) :
    encodeUint128 (Uint128.ofBytes (slice bs o 16)) = slice bs o 16 :=
  encodeUint128_ofBytes (length_slice h)

theorem int32_slice {bs : List Byte} {o : Nat} (h : o + 4 ≤ bs.length) :
    leBytes 4 (ofInt32 (toInt32 (leNat (slice bs o 4)))) = slice bs o 4 := by
  have hl := length_slice h
  have := leNat_lt (slice bs o 4)
  rw [hl] at this
  rw [ofInt32_toInt32 (by omega)]
  exact leBytes_slice h

theorem chunks_slice {α : Type} (f : List Byte → α) (enc : α → List Byte) (n w : Nat)
    (h : ∀ c : List Byte, c.length = w → enc (f c) = c) {bs : List Byte} {o len : Nat}
    (hlen : n * w = len) (hb : o + len ≤ bs.length) :
    (((chunks n w (slice bs o len)).map f).map enc).flatten = slice bs o len := by
  rw [join_chunks w f enc h n _ (by rw [length_slice hb]; omega)]
  apply List.take_of_length_le
  rw [length_slice hb]
  omega

theorem rewardInfos_slice {bs : List Byte} {o : Nat} (hb : o + 507 ≤ bs.length) :
    (((chunks 3 169 (slice bs o 507)).map RewardInfo.ofBytes).map encodeRewardInfo).flatten
      = slice bs o 507 :=
  chunks_slice _ _ 3 169 (fun _ hc => encodeRewardInfo_ofBytes hc) (by norm_num) hb

theorem words_slice {bs : List Byte} {o len : Nat} (n : Nat) (hlen : n * 8 = len)
    (hb : o + len ≤ bs.length) :
    (((chunks n 8 (slice bs o len)).map leNat).map (leBytes 8)).flatten = slice bs o len :=
  chunks_slice _ _ n 8 (fun c hc => leBytes_leNat c 8 hc) hlen hb

/-- Re-serializing the positional reading of 1544 bytes gives the bytes back. -/
theorem encodePoolState_ofBytes {bs : List Byte} (h : bs.length = 1544) :
    encodePoolState (PoolState.ofBytes bs) = bs := by
  unfold encodePoolState PoolState.ofBytes
  simp only []
  rw [rewardInfos_slice (by omega), words_slice 16 (by norm_num) (by omega),
    words_slice 57 (by norm_num) (by omega)]
  simp (disch := omega) only [leBytes_slice, encodeUint128_slice, int32_slice]
  simp (disch := omega) only [slice_eq_drop, slice_append_drop, List.drop_zero]

end

section

open F64 Decoder

theorem calculatePrice_eq_priceOf (L : Libm) (ps : PoolState) :
    calculatePrice L ps =
      priceOf L ps.SqrtPriceX64.Hi ps.SqrtPriceX64.Lo ps.MintDecimalsA ps.MintDecimalsB := rfl

theorem pow_two_64 (L : Libm) : Pow L (ofNat 2) (ofNat 64) = two64 := by
  rw [Pow_libm L Libm.none _ _ intExponent_64]
  exact pow_two_64_none

theorem sub_decimals {a b : Nat} (ha : a < 256) (hb : b < 256) :
    sub (ofNat a) (ofNat b) = ofInt ((a : Int) - (b : Int)) :=
  sub_ofNat (by omega) (by omega)

theorem decimal_scale_near {k : Int} (h1 : -255 ≤ k) (h2 : k ≤ 255) (L : Libm) :
    Pow L (ofNat 10) (ofInt k) = Pow Libm.none (ofNat 10) (ofInt k)
    ∧ isPosFinite (Pow L (ofNat 10) (ofInt k)) = true
    ∧ Near (Pow L (ofNat 10) (ofInt k)) ((10 : ℚ) ^ k) (1 - 1 / 2 ^ 50) (1 + 1 / 2 ^ 50) := by
  have h := decimal_scale_table ⟨(k + 255).toNat, by omega⟩
  have e : (((⟨(k + 255).toNat, by omega⟩ : Fin 511).val : Int) - 255) = k := by
    simp only []
    omega
  rw [e] at h
  have hL := Pow_libm L Libm.none (ofNat 10) (ofInt k) h.1
  have hs := scaleClose_sound h.2
  exact ⟨hL, by rw [hL]; exact hs.1, by rw [hL]; exact hs.2⟩

theorem decimal_scale {k : Int} (h1 : -255 ≤ k) (h2 : k ≤ 255) (L : Libm) :
    Pow L (ofNat 10) (ofInt k) = Pow Libm.none (ofNat 10) (ofInt k) ∧
      isPosFinite (Pow L (ofNat 10) (ofInt k)) = true :=
  ⟨(decimal_scale_near h1 h2 L).1, (decimal_scale_near h1 h2 L).2.1⟩

theorem priceOf_libm (L : Libm) (hi lo : Nat) {a b : Nat} (ha : a < 256) (hb : b < 256) :
    priceOf L hi lo a b = priceOf Libm.none hi lo a b := by
  unfold priceOf
  rw [pow_two_64 L, pow_two_64 Libm.none, sub_decimals ha hb,
    (decimal_scale (by omega) (by omega) L).1]

theorem toRat_round_exact (s : Bool) {a : Nat} (h : a < 2 ^ 53) :
    toRat (round s a 0) = some ((if s then -1 else 1) * (a : ℚ)) := by
  obtain ⟨k, hk⟩ := round_exact s h
  rw [hk]
  simp only [toRat, Option.some.injEq]
  rw [zpow_neg, zpow_natCast]
  push_cast
  field_simp

theorem toRat_ofInt {z : Int} (h1 : -255 ≤ z) (h2 : z ≤ 255) : toRat (ofInt z) = some (z : ℚ) := by
  unfold ofInt
  rw [toRat_round_exact _ (by omega)]
  congr 1
  by_cases hz : z < 0
  · simp only [hz, decide_True, if_true]
    have : (z.natAbs : Int) = -z := by omega
    have h3 : (z.natAbs : ℚ) = ((-z : Int) : ℚ) := by
      rw [← this]
      exact (Int.cast_natCast _).symm
    rw [h3]
    push_cast
    ring
  · simp only [hz, decide_False]
    have : (z.natAbs : Int) = z := by omega
    have h3 : (z.natAbs : ℚ) = ((z : Int) : ℚ) := by
      conv_rhs => rw [← this]
      exact (Int.cast_natCast _).symm
    rw [h3]
    simp

theorem toRat_two64 : toRat two64 = some ((2 : ℚ) ^ 64) := by
  simp only [two64, toRat, Option.some.injEq]
  norm_num

end

theorem zpow_lo_const : (2 : ℚ) ^ (-1020 : Int) ≤ 1 / 2 ^ 128 * (10 : ℚ) ^ (-255 : Int) := by
  rw [zpow_neg, zpow_neg]
  norm_num

theorem zpow_hi_const : (2 : ℚ) ^ 130 * (10 : ℚ) ^ (255 : Int) ≤ (2 : ℚ) ^ (1021 : Int) := by
  norm_num

theorem range_small {V : ℚ} (hV : 1 / 2 ^ 128 * (10 : ℚ) ^ (-255 : Int) ≤ V) :
    (2 : ℚ) ^ (-1020 : Int) ≤ V := le_trans zpow_lo_const hV

theorem range_large {V : ℚ} (hV : V ≤ (2 : ℚ) ^ 130 * (10 : ℚ) ^ (255 : Int)) :
    V ≤ (2 : ℚ) ^ (1021 : Int) := le_trans hV zpow_hi_const

theorem ten_zpow_lower : (10 : ℚ) ^ (-255 : Int) ≤ 1 := by
  have := zpow_le_zpow_right₀ (show (1 : ℚ) ≤ 10 by norm_num) (show (-255 : Int) ≤ 0 by norm_num)
  simpa using this

theorem ten_zpow_upper : (1 : ℚ) ≤ (10 : ℚ) ^ (255 : Int) := by
  have := zpow_le_zpow_right₀ (show (1 : ℚ) ≤ 10 by norm_num) (show (0 : Int) ≤ 255 by norm_num)
  simpa using this

/-- Values between `2^-128` and `2^130` are in the normal range of binary64. -/
theorem range_mid {l h V : ℚ} (hl : 1 / 2 ≤ l) (hh : h ≤ 2) (hV1 : 1 / 2 ^ 128 ≤ V)
    (hV2 : V ≤ 2 ^ 130) :
    (2 : ℚ) ^ (-1021 : Int) ≤ l * V ∧ h * V < (2 : ℚ) ^ (1023 : Int) := by
  apply F64.in_range hl hh
  · apply range_small
    calc 1 / 2 ^ 128 * (10 : ℚ) ^ (-255 : Int) ≤ 1 / 2 ^ 128 * 1 :=
          mul_le_mul_of_nonneg_left ten_zpow_lower (by positivity)
      _ = 1 / 2 ^ 128 := by ring
      _ ≤ V := hV1
  · apply range_large
    calc V ≤ 2 ^ 130 := hV2
      _ = 2 ^ 130 * 1 := by ring
      _ ≤ 2 ^ 130 * (10 : ℚ) ^ (255 : Int) :=
          mul_le_mul_of_nonneg_left ten_zpow_upper (by positivity)

theorem factor_lower (n : Nat) (hn : n ≤ 10) :
    (1 / 2 : ℚ) ≤ (1 - F64.eps) ^ n * (1 - 1 / 2 ^ 50) := by
  unfold F64.eps
  interval_cases n <;> norm_num

theorem factor_upper (n : Nat) (hn : n ≤ 10) :
    (1 + F64.eps) ^ n * (1 + 1 / 2 ^ 50) ≤ (2 : ℚ) := by
  unfold F64.eps
  interval_cases n <;> norm_num

theorem half_le_pow (n : Nat) (hn : n ≤ 10) : (1 / 2 : ℚ) ≤ (1 - F64.eps) ^ n := by
  unfold F64.eps
  interval_cases n <;> norm_num

theorem pow_le_two (n : Nat) (hn : n ≤ 10) : (1 + F64.eps) ^ n ≤ (2 : ℚ) := by
  unfold F64.eps
  interval_cases n <;> norm_num

theorem final_lower : (1 - 1 / 2 ^ 48 : ℚ) ≤ (1 - F64.eps) ^ 10 * (1 - 1 / 2 ^ 50) := by
  unfold F64.eps
  norm_num

theorem final_upper : (1 + F64.eps) ^ 10 * (1 + 1 / 2 ^ 50) ≤ (1 + 1 / 2 ^ 48 : ℚ) := by
  unfold F64.eps
  norm_num

/-- The accuracy of `calculatePrice`: the float64 result is finite, carries no sign bit,
and is within relative error `2^-48` of the real number
`((hi * 2^64 + lo) / 2^64)^2 * 10^(a - b)`. -/
theorem priceOf_near (L : Libm) (hi lo a b : Nat) (hhi : hi < 2 ^ 64) (hlo : lo < 2 ^ 64)
    (ha : a < 256) (hb : b < 256) :
    F64.Near (priceOf L hi lo a b)
      ((((hi : ℚ) * 2 ^ 64 + (lo : ℚ)) / 2 ^ 64) ^ 2 * (10 : ℚ) ^ ((a : Int) - (b : Int)))
      (1 - 1 / 2 ^ 48) (1 + 1 / 2 ^ 48) := by
  unfold priceOf
  rw [pow_two_64, F64.sub_ofNat (by omega) (by omega)]
  unfold two64
  generalize hk : (a : Int) - (b : Int) = k
  have hk1 : -255 ≤ k := by omega
  have hk2 : k ≤ 255 := by omega
  have hiq : (hi : ℚ) < 2 ^ 64 := by exact_mod_cast hhi
  have loq : (lo : ℚ) < 2 ^ 64 := by exact_mod_cast hlo
  have hi0 : (0 : ℚ) ≤ hi := Nat.cast_nonneg _
  have lo0 : (0 : ℚ) ≤ lo := Nat.cast_nonneg _
  have hl0 : (0 : ℚ) ≤ 1 - F64.eps := F64.one_sub_eps_nonneg
  have hl1 : (1 - F64.eps : ℚ) ≤ 1 := by have := F64.eps_nonneg; linarith
  have hh1 : (1 : ℚ) ≤ 1 + F64.eps := by have := F64.eps_nonneg; linarith
  have hw : (hi : ℚ) * 2 ^ 64 + (lo : ℚ) = 0
      ∨ (1 ≤ (hi : ℚ) * 2 ^ 64 + (lo : ℚ) ∧ (hi : ℚ) * 2 ^ 64 + (lo : ℚ) ≤ 2 ^ 129) := by
    by_cases h0 : hi = 0
    · by_cases h1 : lo = 0
      · left; simp [h0, h1]
      · right
        have : (1 : ℚ) ≤ lo := by exact_mod_cast Nat.one_le_iff_ne_zero.2 h1
        constructor <;> nlinarith
    · right
      have : (1 : ℚ) ≤ hi := by exact_mod_cast Nat.one_le_iff_ne_zero.2 h0
      constructor <;> nlinarith
  generalize hW : (hi : ℚ) * 2 ^ 64 + (lo : ℚ) = w at hw
  have w0 : 0 ≤ w := by rw [← hW]; positivity
  -- float64(Hi)
  have n1 := F64.near_ofNat hhi
  -- float64(Hi) * 2^64
  have n2 : F64.Near (F64.mul (F64.ofNat hi) (F64.fin false (2 ^ 52) 12)) ((hi : ℚ) * 2 ^ 64)
      ((1 - F64.eps) ^ 2) ((1 + F64.eps) ^ 2) := by
    have hr : (hi : ℚ) * 2 ^ 64 = 0 ∨ ((2 : ℚ) ^ (-1021 : Int) ≤ (1 - F64.eps) * 1 * ((hi : ℚ) * 2 ^ 64)
        ∧ (1 + F64.eps) * 1 * ((hi : ℚ) * 2 ^ 64) < (2 : ℚ) ^ (1023 : Int)) := by
      by_cases h0 : hi = 0
      · left; simp [h0]
      · right
        have h1 : (1 : ℚ) ≤ hi := by exact_mod_cast Nat.one_le_iff_ne_zero.2 h0
        apply range_mid
        · have := half_le_pow 1 (by norm_num)
          simpa using this
        · have := pow_le_two 1 (by norm_num)
          simpa using this
        · nlinarith
        · nlinarith
    have := F64.near_mul n1 F64.near_two64 (by positivity) (by norm_num) hr
    exact this.mono (by positivity) (le_of_eq (by ring)) (le_of_eq (by ring))
  -- float64(Lo)
  have n3 : F64.Near (F64.ofNat lo) (lo : ℚ) ((1 - F64.eps) ^ 2) ((1 + F64.eps) ^ 2) := by
    refine (F64.near_ofNat hlo).mono lo0 ?_ ?_
    · nlinarith
    · nlinarith
  -- hi + lo
  have n4 : F64.Near (F64.add (F64.mul (F64.ofNat hi) (F64.fin false (2 ^ 52) 12)) (F64.ofNat lo))
      w ((1 - F64.eps) ^ 3) ((1 + F64.eps) ^ 3) := by
    have hr : (hi : ℚ) * 2 ^ 64 + (lo : ℚ) = 0
        ∨ ((2 : ℚ) ^ (-1021 : Int) ≤ (1 - F64.eps) ^ 2 * ((hi : ℚ) * 2 ^ 64 + (lo : ℚ))
          ∧ (1 + F64.eps) ^ 2 * ((hi : ℚ) * 2 ^ 64 + (lo : ℚ)) < (2 : ℚ) ^ (1023 : Int)) := by
      rw [hW]
      rcases hw with h | ⟨h1, h2⟩
      · left; exact h
      · right
        exact range_mid (half_le_pow 2 (by norm_num)) (pow_le_two 2 (by norm_num))
          (le_trans (by norm_num) h1) (le_trans h2 (by norm_num))
    have := F64.near_add n2 n3 hr
    rw [hW] at this
    exact this.mono w0 (le_of_eq (by ring)) (le_of_eq (by ring))
  -- sqrtPrice := (hi + lo) / 2^64
  have hs : w / 2 ^ 64 = 0 ∨ (1 / 2 ^ 64 ≤ w / 2 ^ 64 ∧ w / 2 ^ 64 ≤ 2 ^ 65) := by
    rcases hw with h | ⟨h1, h2⟩
    · left; rw [h]; simp
    · right
      constructor
      · exact div_le_div_of_nonneg_right h1 (by positivity)
      · rw [div_le_iff₀ (by positivity)]
        calc w ≤ 2 ^ 129 := h2
          _ = 2 ^ 65 * 2 ^ 64 := by norm_num
  generalize hS : w / 2 ^ 64 = s at hs
  have s0 : 0 ≤ s := by rw [← hS]; positivity
  have n5 : F64.Near (F64.div (F64.add (F64.mul (F64.ofNat hi) (F64.fin false (2 ^ 52) 12))
      (F64.ofNat lo)) (F64.fin false (2 ^ 52) 12)) s ((1 - F64.eps) ^ 4) ((1 + F64.eps) ^ 4) := by
    have hr : w / 2 ^ 64 = 0 ∨ ((2 : ℚ) ^ (-1021 : Int) ≤ (1 - F64.eps) ^ 3 * (w / 2 ^ 64)
          ∧ (1 + F64.eps) ^ 3 * (w / 2 ^ 64) < (2 : ℚ) ^ (1023 : Int)) := by
      rw [hS]
      rcases hs with h | ⟨h1, h2⟩
      · left; exact h
      · right
        exact range_mid (half_le_pow 3 (by norm_num)) (pow_le_two 3 (by norm_num))
          (le_trans (by norm_num) h1) (le_trans h2 (by norm_num))
    have := F64.near_div_two64 n4 hr
    rw [hS] at this
    exact this.mono s0 (le_of_eq (by ring)) (le_of_eq (by ring))
  -- sqrtPrice * sqrtPrice
  have hp : s * s = 0 ∨ (1 / 2 ^ 128 ≤ s * s ∧ s * s ≤ 2 ^ 130) := by
    rcases hs with h | ⟨h1, h2⟩
    · left; rw [h]; simp
    · right
      constructor
      · calc (1 / 2 ^ 128 : ℚ) = (1 / 2 ^ 64) * (1 / 2 ^ 64) := by norm_num
          _ ≤ s * s := mul_le_mul h1 h1 (by positivity) s0
      · calc s * s ≤ 2 ^ 65 * 2 ^ 65 := mul_le_mul h2 h2 s0 (by positivity)
          _ = 2 ^ 130 := by norm_num
  generalize hsq : F64.div (F64.add (F64.mul (F64.ofNat hi) (F64.fin false (2 ^ 52) 12))
      (F64.ofNat lo)) (F64.fin false (2 ^ 52) 12) = sq at n5 ⊢
  have n6 : F64.Near (F64.mul sq sq) (s * s) ((1 - F64.eps) ^ 9) ((1 + F64.eps) ^ 9) := by
    have hr : s * s = 0 ∨ ((2 : ℚ) ^ (-1021 : Int)
          ≤ (1 - F64.eps) ^ 4 * (1 - F64.eps) ^ 4 * (s * s)
          ∧ (1 + F64.eps) ^ 4 * (1 + F64.eps) ^ 4 * (s * s) < (2 : ℚ) ^ (1023 : Int)) := by
      rcases hp with h | ⟨h1, h2⟩
      · left; exact h
      · right
        have a := half_le_pow 8 (by norm_num)
        have b := pow_le_two 8 (by norm_num)
        exact range_mid (by rw [← pow_add]; exact a) (by rw [← pow_add]; exact b) h1 h2
    have := F64.near_mul n5 n5 s0 (by positivity) hr
    exact this.mono (mul_nonneg s0 s0) (le_of_eq (by ring)) (le_of_eq (by ring))
  -- ... * math.Pow(10, A - B)
  have nscale := (decimal_scale_near hk1 hk2 L).2.2
  have k0 : (0 : ℚ) < (10 : ℚ) ^ k := zpow_pos (by norm_num) _
  have kl : (10 : ℚ) ^ (-255 : Int) ≤ (10 : ℚ) ^ k :=
    zpow_le_zpow_right₀ (by norm_num) hk1
  have ku : (10 : ℚ) ^ k ≤ (10 : ℚ) ^ (255 : Int) :=
    zpow_le_zpow_right₀ (by norm_num) hk2
  have n7 : F64.Near (F64.mul (F64.mul sq sq) (Pow L (F64.ofNat 10) (F64.ofInt k)))
      (s * s * (10 : ℚ) ^ k)
      ((1 - F64.eps) ^ 10 * (1 - 1 / 2 ^ 50)) ((1 + F64.eps) ^ 10 * (1 + 1 / 2 ^ 50)) := by
    have hr : s * s * (10 : ℚ) ^ k = 0 ∨ ((2 : ℚ) ^ (-1021 : Int)
          ≤ (1 - F64.eps) ^ 9 * (1 - 1 / 2 ^ 50) * (s * s * (10 : ℚ) ^ k)
          ∧ (1 + F64.eps) ^ 9 * (1 + 1 / 2 ^ 50) * (s * s * (10 : ℚ) ^ k)
            < (2 : ℚ) ^ (1023 : Int)) := by
      rcases hp with h | ⟨h1, h2⟩
      · left; rw [h]; simp
      · right
        apply F64.in_range (factor_lower 9 (by norm_num)) (factor_upper 9 (by norm_num))
        · apply range_small
          exact mul_le_mul h1 kl (zpow_pos (by norm_num) _).le (mul_nonneg s0 s0)
        · apply range_large
          exact mul_le_mul h2 ku k0.le (by positivity)
    have := F64.near_mul n6 nscale k0.le (by norm_num) hr
    exact this.mono (mul_nonneg (mul_nonneg s0 s0) k0.le) (le_of_eq (by ring))
      (le_of_eq (by ring))
  have e : s ^ 2 * (10 : ℚ) ^ k = s * s * (10 : ℚ) ^ k := by ring
  rw [e]
  exact n7.mono (mul_nonneg (mul_nonneg s0 s0) k0.le) final_lower final_upper

theorem toRat_of_near {x : F64} {V : ℚ}
    (h : F64.Near x V (1 - 1 / 2 ^ 48) (1 + 1 / 2 ^ 48)) :
    ∃ r : ℚ, F64.toRat x = some r ∧ 0 ≤ r ∧ |r - V| ≤ V / 2 ^ 48 := by
  obtain ⟨m, e, rfl, h1, h2⟩ := h
  refine ⟨(m : ℚ) * 2 ^ e, by simp [F64.toRat], ?_, ?_⟩
  · have := F64.two_zpow_pos e
    positivity
  · rw [abs_le]
    constructor <;> linarith

/-- C1: for every record whose `SqrtPriceX64` halves are 64-bit and whose decimals are bytes,
`calculatePrice` is `((Hi * 2^64 + Lo) / 2^64)^2 * 10^(A - B)` computed in float64 in this
order: `float64(Hi) * 2^64 + float64(Lo)`, divided by `2^64`, squared, multiplied by
`math.Pow(10, A - B)`, nothing applied after the last product. The factor `2^64` is exact;
the exponent is the signed difference `A - B`, exact and in `[-255, 255]` (no 8-bit
wrap-around); and the value returned is a finite, non-negative float within relative error
`2^-48` of the real number `((Hi * 2^64 + Lo) / 2^64)^2 * 10^(A - B)`: it is neither
rounded to a coarser grid nor clamped. -/
theorem calculatePrice_formula (L : Libm) (ps : PoolState)
    (hHi : ps.SqrtPriceX64.Hi < 2 ^ 64) (hLo : ps.SqrtPriceX64.Lo < 2 ^ 64)
    (hA : ps.MintDecimalsA < 256) (hB : ps.MintDecimalsB < 256) :
    calculatePrice L ps =
      F64.mul
        (F64.mul
          (F64.div (F64.add (F64.mul (F64.ofNat ps.SqrtPriceX64.Hi) two64)
            (F64.ofNat ps.SqrtPriceX64.Lo)) two64)
          (F64.div (F64.add (F64.mul (F64.ofNat ps.SqrtPriceX64.Hi) two64)
            (F64.ofNat ps.SqrtPriceX64.Lo)) two64))
        (Pow L (F64.ofNat 10) (F64.ofInt ((ps.MintDecimalsA : Int) - (ps.MintDecimalsB : Int))))
    ∧ F64.toRat two64 = some ((2 : ℚ) ^ 64)
    ∧ F64.toRat (F64.ofInt ((ps.MintDecimalsA : Int) - (ps.MintDecimalsB : Int)))
        = some ((ps.MintDecimalsA : ℚ) - (ps.MintDecimalsB : ℚ))
    ∧ -255 ≤ (ps.MintDecimalsA : Int) - (ps.MintDecimalsB : Int)
    ∧ (ps.MintDecimalsA : Int) - (ps.MintDecimalsB : Int) ≤ 255
    ∧ ∃ r : ℚ, F64.toRat (calculatePrice L ps) = some r ∧ 0 ≤ r
        ∧ |r - (((ps.SqrtPriceX64.Hi : ℚ) * 2 ^ 64 + (ps.SqrtPriceX64.Lo : ℚ)) / 2 ^ 64) ^ 2
              * (10 : ℚ) ^ ((ps.MintDecimalsA : Int) - (ps.MintDecimalsB : Int))|
          ≤ (((ps.SqrtPriceX64.Hi : ℚ) * 2 ^ 64 + (ps.SqrtPriceX64.Lo : ℚ)) / 2 ^ 64) ^ 2
              * (10 : ℚ) ^ ((ps.MintDecimalsA : Int) - (ps.MintDecimalsB : Int)) / 2 ^ 48 := by
  refine ⟨?_, toRat_two64, ?_, by omega, by omega, ?_⟩
  · rw [calculatePrice_eq_priceOf]
    unfold priceOf
    rw [pow_two_64, sub_decimals hA hB]
  · rw [toRat_ofInt (by omega) (by omega)]
    push_cast
    rfl
  · rw [calculatePrice_eq_priceOf]
    exact toRat_of_near (priceOf_near L _ _ _ _ hHi hLo hA hB)

section

open F64 Decoder

theorem isPosFinite_two64 : isPosFinite two64 = true := by decide

theorem nonNeg_sqrt (hi lo : Nat) :
    nonNeg (div (add (mul (ofNat hi) two64) (ofNat lo)) two64) = true :=
  nonNeg_div_pos (nonNeg_add (nonNeg_mul_pos (nonNeg_ofNat hi) isPosFinite_two64)
    (nonNeg_ofNat lo)) isPosFinite_two64

theorem mul_self_form {x : F64} (hx : nonNeg x = true) :
    mul x x = inf false ∨ ∃ q t, mul x x = fin false q t ∧ Canon q t := by
  cases x with
  | nan => simp [nonNeg] at hx
  | inf s =>
    simp [nonNeg] at hx
    subst hx
    left; rfl
  | fin s m e =>
    simp [nonNeg] at hx
    subst hx
    simp only [mul, Bool.xor_false]
    exact round_canon false _ _

theorem mul_one_of_form {p : F64}
    (h : p = inf false ∨ ∃ q t, p = fin false q t ∧ Canon q t) : mul p (ofNat 1) = p := by
  rcases h with h | ⟨q, t, h, hc⟩
  · rw [h]; decide
  · rw [h]; exact mul_one hc

theorem mul_zero_pos {y : F64} (hy : isPosFinite y = true) : mul F64.zero y = F64.zero := by
  cases y with
  | nan => simp [isPosFinite] at hy
  | inf t => simp [isPosFinite] at hy
  | fin t n f =>
    cases t <;> simp [isPosFinite] at hy
    simp [F64.zero, mul, F64.round]

theorem pow_ten_zero (L : Libm) : Pow L (ofNat 10) (ofInt 0) = ofNat 1 := by
  rw [(decimal_scale (by norm_num) (by norm_num) L).1]
  decide

theorem pow_ten_one (L : Libm) : Pow L (ofNat 10) (ofInt 1) = ofNat 10 := by
  rw [(decimal_scale (by norm_num) (by norm_num) L).1]
  decide

theorem pow_ten_neg_one (L : Libm) : Pow L (ofNat 10) (ofInt (-1)) = F64.tenth := by
  rw [(decimal_scale (by norm_num) (by norm_num) L).1]
  decide

theorem tenth_eq_div : F64.tenth = div (ofNat 1) (ofNat 10) := by decide

/-- C7: for every record whose decimals are bytes, `calculatePrice` returns a value that is
not NaN, carries no sign bit and is not below zero, and the scale factor
`math.Pow(10, A - B)` is finite and strictly positive. -/
theorem calculatePrice_nonneg (L : Libm) (ps : PoolState)
    (hA : ps.MintDecimalsA < 256) (hB : ps.MintDecimalsB < 256) :
    F64.isNaN (calculatePrice L ps) = false
    ∧ F64.signbit (calculatePrice L ps) = false
    ∧ F64.lt (calculatePrice L ps) (F64.ofNat 0) = false
    ∧ F64.isPosFinite (Pow L (F64.ofNat 10)
        (F64.sub (F64.ofNat ps.MintDecimalsA) (F64.ofNat ps.MintDecimalsB))) = true := by
  have hs : isPosFinite (Pow L (ofNat 10)
      (sub (ofNat ps.MintDecimalsA) (ofNat ps.MintDecimalsB))) = true := by
    rw [sub_decimals hA hB]
    exact (decimal_scale (by omega) (by omega) L).2
  have hn : nonNeg (calculatePrice L ps) = true := by
    rw [calculatePrice_eq_priceOf]
    unfold priceOf
    rw [pow_two_64]
    exact nonNeg_mul_pos (nonNeg_mul_self (nonNeg_sqrt _ _)) hs
  obtain ⟨h1, h2, h3⟩ := nonNeg_spec hn
  exact ⟨h1, h2, h3, hs⟩

/-- C8: with `SqrtPriceX64 = (Lo = 0, Hi = 0)` the price is `+0` for every pair of decimals;
with `(Lo = 0, Hi = 1)` the intermediate `sqrtPrice` is exactly `1.0` and, when the two
decimals are equal, the price is exactly `1.0`. -/
theorem calculatePrice_reconstruction (L : Libm) (ps : PoolState)
    (hA : ps.MintDecimalsA < 256) (hB : ps.MintDecimalsB < 256) :
    (ps.SqrtPriceX64.Hi = 0 → ps.SqrtPriceX64.Lo = 0 →
      calculatePrice L ps = F64.zero ∧ F64.toRat (calculatePrice L ps) = some 0)
    ∧ (ps.SqrtPriceX64.Hi = 1 → ps.SqrtPriceX64.Lo = 0 →
      sqrtPrice L ps = F64.one ∧ F64.toRat (sqrtPrice L ps) = some 1
      ∧ (ps.MintDecimalsA = ps.MintDecimalsB →
        calculatePrice L ps = F64.one ∧ F64.toRat (calculatePrice L ps) = some 1)) := by
  have t0 : toRat F64.zero = some 0 := by simp [F64.zero, toRat]
  have t1 : toRat F64.one = some 1 := by
    simp only [F64.one, toRat, Option.some.injEq]
    norm_num
  constructor
  · intro hHi hLo
    have h : calculatePrice L ps = F64.zero := by
      rw [calculatePrice_eq_priceOf, hHi, hLo]
      unfold priceOf
      rw [pow_two_64, sub_decimals hA hB]
      have e : mul (div (add (mul (ofNat 0) two64) (ofNat 0)) two64)
          (div (add (mul (ofNat 0) two64) (ofNat 0)) two64) = F64.zero := by decide
      rw [e]
      exact mul_zero_pos (decimal_scale (by omega) (by omega) L).2
    exact ⟨h, by rw [h]; exact t0⟩
  · intro hHi hLo
    have hsq : sqrtPrice L ps = F64.one := by
      unfold sqrtPrice
      simp only [hHi, hLo, pow_two_64]
      decide
    refine ⟨hsq, by rw [hsq]; exact t1, ?_⟩
    intro hAB
    have h : calculatePrice L ps = F64.one := by
      unfold calculatePrice
      simp only [hsq]
      rw [hAB, sub_decimals hB hB, sub_self, pow_ten_zero]
      decide
    exact ⟨h, by rw [h]; exact t1⟩

/-- C6 (amended): raising `MintDecimalsA` by one over equal decimals multiplies the price by
`10.0`; raising `MintDecimalsB` by one multiplies it by the float64 quotient `1.0 / 10.0`,
which is the value `math.Pow(10, -1)` returns. -/
theorem decimal_scaling (L : Libm) (ps : PoolState) (d : Nat) (hd : d ≤ 254) :
    calculatePrice L { ps with MintDecimalsA := d + 1, MintDecimalsB := d } =
      F64.mul (calculatePrice L { ps with MintDecimalsA := d, MintDecimalsB := d }) (F64.ofNat 10)
    ∧ calculatePrice L { ps with MintDecimalsA := d, MintDecimalsB := d + 1 } =
      F64.mul (calculatePrice L { ps with MintDecimalsA := d, MintDecimalsB := d })
        (F64.div (F64.ofNat 1) (F64.ofNat 10))
    ∧ Pow L (F64.ofNat 10) (F64.ofInt (-1)) = F64.div (F64.ofNat 1) (F64.ofNat 10) := by
  have hp : Pow L (F64.ofNat 10) (F64.ofInt (-1)) = F64.div (F64.ofNat 1) (F64.ofNat 10) := by
    rw [pow_ten_neg_one, tenth_eq_div]
  have h0 : calculatePrice L { ps with MintDecimalsA := d, MintDecimalsB := d } =
      mul (div (add (mul (ofNat ps.SqrtPriceX64.Hi) two64) (ofNat ps.SqrtPriceX64.Lo)) two64)
        (div (add (mul (ofNat ps.SqrtPriceX64.Hi) two64) (ofNat ps.SqrtPriceX64.Lo)) two64) := by
    rw [calculatePrice_eq_priceOf]
    unfold priceOf
    simp only []
    rw [pow_two_64, sub_decimals (by omega) (by omega), sub_self, pow_ten_zero]
    exact mul_one_of_form (mul_self_form (nonNeg_sqrt _ _))
  rw [h0]
  refine ⟨?_, ?_, hp⟩
  · rw [calculatePrice_eq_priceOf]
    unfold priceOf
    simp only []
    rw [pow_two_64, sub_decimals (by omega) (by omega)]
    have e : ((d + 1 : Nat) : Int) - (d : Int) = 1 := by omega
    rw [e, pow_ten_one]
  · rw [calculatePrice_eq_priceOf]
    unfold priceOf
    simp only []
    rw [pow_two_64, sub_decimals (by omega) (by omega)]
    have e : (d : Int) - ((d + 1 : Nat) : Int) = -1 := by omega
    rw [e, pow_ten_neg_one, tenth_eq_div]

/-- C6 (as stated) fails: with `SqrtPriceX64 = (Lo = 0, Hi = 11)` the price at decimals
`(0, 1)` is `121 * 0.1 = 12.100000000000001` (`6811694436397876 * 2^-49`), while the price
at `(0, 0)` divided by ten is `121 / 10 = 12.1` (`6811694436397875 * 2^-49`); the two
differ, also under Go's `==`. -/
theorem decimal_scaling_division_fails :
    calculatePrice Libm.none
        { zeroPool with SqrtPriceX64 := { Lo := 0, Hi := 11 }, MintDecimalsA := 0,
                        MintDecimalsB := 0 + 1 }
      = F64.fin false 6811694436397876 (-49)
    ∧ F64.div (calculatePrice Libm.none
        { zeroPool with SqrtPriceX64 := { Lo := 0, Hi := 11 }, MintDecimalsA := 0,
                        MintDecimalsB := 0 }) (F64.ofNat 10)
      = F64.fin false 6811694436397875 (-49)
    ∧ calculatePrice Libm.none
        { zeroPool with SqrtPriceX64 := { Lo := 0, Hi := 11 }, MintDecimalsA := 0,
                        MintDecimalsB := 0 + 1 }
      ≠ F64.div (calculatePrice Libm.none
        { zeroPool with SqrtPriceX64 := { Lo := 0, Hi := 11 }, MintDecimalsA := 0,
                        MintDecimalsB := 0 }) (F64.ofNat 10)
    ∧ F64.eq (calculatePrice Libm.none
        { zeroPool with SqrtPriceX64 := { Lo := 0, Hi := 11 }, MintDecimalsA := 0,
                        MintDecimalsB := 0 + 1 })
      (F64.div (calculatePrice Libm.none
        { zeroPool with SqrtPriceX64 := { Lo := 0, Hi := 11 }, MintDecimalsA := 0,
                        MintDecimalsB := 0 }) (F64.ofNat 10)) = false := by
  have h1 : calculatePrice Libm.none
      { zeroPool with SqrtPriceX64 := { Lo := 0, Hi := 11 }, MintDecimalsA := 0,
                      MintDecimalsB := 0 + 1 } = F64.fin false 6811694436397876 (-49) := by
    decide
  have h2 : F64.div (calculatePrice Libm.none
      { zeroPool with SqrtPriceX64 := { Lo := 0, Hi := 11 }, MintDecimalsA := 0,
                      MintDecimalsB := 0 }) (F64.ofNat 10)
        = F64.fin false 6811694436397875 (-49) := by
    decide
  refine ⟨h1, h2, ?_, ?_⟩
  · rw [h1, h2]
    decide
  · rw [h1, h2]
    decide

theorem decode_short {buf : List Byte} (h : buf.length < 1544) : decodePoolState buf = none := by
  rw [decodePoolState_eq]
  simp [fixed, h]

theorem decode_long {buf : List Byte} (h : 1544 ≤ buf.length) :
    decodePoolState buf = some (PoolState.ofBytes (buf.take 1544), buf.drop 1544) := by
  rw [decodePoolState_eq]
  have : ¬ buf.length < 1544 := by omega
  simp [fixed, this]

theorem decode_none_iff (buf : List Byte) : decodePoolState buf = none ↔ buf.length < 1544 := by
  constructor
  · intro h
    by_contra hc
    rw [decode_long (by omega)] at h
    exact Option.noConfusion h
  · exact decode_short

theorem slice_take {bs : List Byte} {o w k : Nat} (h : o + w ≤ k) :
    slice (bs.take k) o w = slice bs o w := by
  unfold slice
  rw [List.drop_take, List.take_take]
  congr 1
  omega

theorem slice_one {bs : List Byte} {o : Nat} (h : o < bs.length) :
    slice bs o 1 = [bs.get ⟨o, h⟩] :=
  List.take_one_drop_eq_of_lt_length h

theorem slice_slice_take (bs : List Byte) (o w k : Nat) (h : k ≤ w) :
    (slice bs o w).take k = slice bs o k := by
  unfold slice
  rw [List.take_take, min_eq_left h]

theorem slice_slice_drop (bs : List Byte) (o w k : Nat) :
    (slice bs o w).drop k = slice bs (o + k) (w - k) := by
  unfold slice
  rw [List.drop_take, List.drop_drop]

theorem slice_set_of_le {bs : List Byte} {o w i : Nat} (v : Byte) (h : o + w ≤ i) :
    slice (bs.set i v) o w = slice bs o w := by
  unfold slice
  apply List.ext_getElem?
  intro j
  simp only [List.getElem?_take, List.getElem?_drop]
  split_ifs with hj
  · rw [List.getElem?_set_ne (by omega)]
  · rfl

theorem slice_set_of_lt {bs : List Byte} {o w i : Nat} (v : Byte) (h : i < o) :
    slice (bs.set i v) o w = slice bs o w := by
  unfold slice
  rw [List.drop_set_of_lt _ _ h]

theorem slice_set_self {bs : List Byte} {i : Nat} (v : Byte) (h : i < bs.length) :
    slice (bs.set i v) i 1 = [v] := by
  rw [slice_one (by simpa using h)]
  simp

/-- The price inputs of the decoded record sit at offsets 233, 234 and 253..268. -/
theorem ofBytes_price_inputs (buf : List Byte) :
    (PoolState.ofBytes (buf.take 1544)).MintDecimalsA = leNat (slice buf 233 1)
    ∧ (PoolState.ofBytes (buf.take 1544)).MintDecimalsB = leNat (slice buf 234 1)
    ∧ (PoolState.ofBytes (buf.take 1544)).SqrtPriceX64.Lo = leNat (slice buf 253 8)
    ∧ (PoolState.ofBytes (buf.take 1544)).SqrtPriceX64.Hi = leNat (slice buf 261 8) := by
  refine ⟨?_, ?_, ?_, ?_⟩
  · show leNat (slice (buf.take 1544) 233 1) = _
    rw [slice_take (by norm_num)]
  · show leNat (slice (buf.take 1544) 234 1) = _
    rw [slice_take (by norm_num)]
  · show leNat ((slice (buf.take 1544) 253 16).take 8) = _
    rw [slice_take (by norm_num), slice_slice_take _ _ _ _ (by norm_num)]
  · show leNat ((slice (buf.take 1544) 253 16).drop 8) = _
    rw [slice_take (by norm_num), slice_slice_drop]

theorem priceOf_of_inputs (L : Libm) (buf : List Byte) (a b lo hi : Nat)
    (hA : leNat (slice buf 233 1) = a) (hB : leNat (slice buf 234 1) = b)
    (hLo : leNat (slice buf 253 8) = lo) (hHi : leNat (slice buf 261 8) = hi) :
    calculatePrice L (PoolState.ofBytes (buf.take 1544)) = priceOf L hi lo a b := by
  obtain ⟨h1, h2, h3, h4⟩ := ofBytes_price_inputs buf
  rw [calculatePrice_eq_priceOf, h1, h2, h3, h4, hA, hB, hLo, hHi]

/-- C2: every 1544-byte buffer that encodes `SqrtPriceX64 = (Lo = 0, Hi = 2)` and
`MintDecimalsA = MintDecimalsB = 6` decodes, and the price of the decoded record is
exactly `4.0`; the same buffer with only the byte of `MintDecimalsB` changed to `3`
decodes to a record whose price is exactly `4000.0`. -/
theorem end_to_end (L : Libm) (buf : List Byte) (hlen : buf.length = 1544)
    (hA : slice buf 233 1 = [6]) (hB : slice buf 234 1 = [6])
    (hS : slice buf 253 16 = [0, 0, 0, 0, 0, 0, 0, 0, 2, 0, 0, 0, 0, 0, 0, 0]) :
    (∃ ps rest, decodePoolState buf = some (ps, rest)
      ∧ calculatePrice L ps = F64.four ∧ F64.toRat (calculatePrice L ps) = some 4)
    ∧ (∃ ps rest, decodePoolState (buf.set 234 3) = some (ps, rest)
      ∧ calculatePrice L ps = F64.fourThousand
      ∧ F64.toRat (calculatePrice L ps) = some 4000) := by
  have hLo : leNat (slice buf 253 8) = 0 := by
    rw [← slice_slice_take buf 253 16 8 (by norm_num), hS]; decide
  have hHi : leNat (slice buf 261 8) = 2 := by
    have := slice_slice_drop buf 253 16 8
    rw [hS] at this
    rw [show 261 = 253 + 8 by norm_num, show 8 = 16 - 8 by norm_num, ← this]; decide
  have t4 : toRat F64.four = some 4 := by
    simp only [F64.four, toRat, Option.some.injEq]
    norm_num
  have t4000 : toRat F64.fourThousand = some 4000 := by
    simp only [F64.fourThousand, toRat, Option.some.injEq]
    norm_num
  constructor
  · refine ⟨_, _, decode_long (by omega), ?_⟩
    have h : calculatePrice L (PoolState.ofBytes (buf.take 1544)) = F64.four := by
      rw [priceOf_of_inputs L buf 6 6 0 2 (by rw [hA]; decide) (by rw [hB]; decide) hLo hHi,
        priceOf_libm L _ _ (by norm_num) (by norm_num)]
      decide
    exact ⟨h, by rw [h]; exact t4⟩
  · refine ⟨_, _, decode_long (by simp; omega), ?_⟩
    have h : calculatePrice L (PoolState.ofBytes ((buf.set 234 3).take 1544)) =
        F64.fourThousand := by
      rw [priceOf_of_inputs L (buf.set 234 3) 6 3 0 2
          (by rw [slice_set_of_le _ (by norm_num), hA]; decide)
          (by rw [slice_set_self _ (by omega)]; decide)
          (by rw [slice_set_of_lt _ (by norm_num)]; exact hLo)
          (by rw [slice_set_of_lt _ (by norm_num)]; exact hHi),
        priceOf_libm L _ _ (by norm_num) (by norm_num)]
      decide
    exact ⟨h, by rw [h]; exact t4000⟩

theorem end_to_end_witness :
    sampleBuffer.length = 1544 ∧
    ((∃ ps rest, decodePoolState sampleBuffer = some (ps, rest)
      ∧ calculatePrice Libm.none ps = F64.four
      ∧ F64.toRat (calculatePrice Libm.none ps) = some 4)
    ∧ (∃ ps rest, decodePoolState (sampleBuffer.set 234 3) = some (ps, rest)
      ∧ calculatePrice Libm.none ps = F64.fourThousand
      ∧ F64.toRat (calculatePrice Libm.none ps) = some 4000)) :=
  ⟨by decide, end_to_end Libm.none sampleBuffer (by decide) (by decide) (by decide) (by decide)⟩

/-- C3: decoding fails exactly on the buffers shorter than 1544 bytes; when the fetched
account data is that short, `getUpdate` returns the deserialization error and no update
map, so no price is produced from it. -/
theorem decode_truncated (w : World) (r : raydiumCLMMDataSource) (pubKey : PublicKey)
    (buf : List Byte) (hlen : buf.length < 1544)
    (hkey : w.PublicKeyFromBase58 r.raydiumCLMMConfig.ContractAddress = some pubKey)
    (hfetch : w.GetAccountInfoWithOpts pubKey = some buf) :
    decodePoolState buf = none
    ∧ (∀ b : List Byte, decodePoolState b = none ↔ b.length < 1544)
    ∧ (getUpdate w r).updates = none
    ∧ (getUpdate w r).err = some UpdateError.failedToDeserializePoolState := by
  have hd := decode_short hlen
  refine ⟨hd, decode_none_iff, ?_, ?_⟩ <;> simp [getUpdate, hkey, hfetch, hd]

theorem decode_truncated_witness :
    (sampleBuffer.take 1543).length < 1544
    ∧ (decodePoolState (sampleBuffer.take 1543) = none
      ∧ (∀ b : List Byte, decodePoolState b = none ↔ b.length < 1544)
      ∧ (getUpdate (sampleWorld (sampleBuffer.take 1543)) sampleSource).updates = none
      ∧ (getUpdate (sampleWorld (sampleBuffer.take 1543)) sampleSource).err
          = some UpdateError.failedToDeserializePoolState) :=
  ⟨by decide, decode_truncated (sampleWorld (sampleBuffer.take 1543)) sampleSource
    (List.replicate 32 1) (sampleBuffer.take 1543) (by decide) (by decide) rfl⟩

/-- C4: every buffer of exactly 1544 bytes decodes, whatever its bytes, leaving nothing
unread, and serializing the decoded record field by field gives the buffer back; hence two
1544-byte buffers that decode to the same result are equal. -/
theorem decode_roundtrip (buf buf' : List Byte) (hlen : buf.length = 1544)
    (hlen' : buf'.length = 1544) :
    (∃ ps, decodePoolState buf = some (ps, []) ∧ encodePoolState ps = buf)
    ∧ (decodePoolState buf = decodePoolState buf' → buf = buf') := by
  have key : ∀ b : List Byte, b.length = 1544 →
      decodePoolState b = some (PoolState.ofBytes b, []) := by
    intro b hb
    rw [decode_long (by omega), List.take_of_length_le (by omega),
      List.drop_of_length_le (by omega)]
  refine ⟨⟨_, key buf hlen, encodePoolState_ofBytes hlen⟩, ?_⟩
  intro h
  rw [key buf hlen, key buf' hlen'] at h
  have h2 : PoolState.ofBytes buf = PoolState.ofBytes buf' := by
    injection h with h
    exact congrArg Prod.fst h
  rw [← encodePoolState_ofBytes hlen, ← encodePoolState_ofBytes hlen', h2]

theorem decode_roundtrip_witness :
    sampleBuffer.length = 1544 ∧ (sampleBuffer.set 234 3).length = 1544
    ∧ ((∃ ps, decodePoolState sampleBuffer = some (ps, [])
        ∧ encodePoolState ps = sampleBuffer)
      ∧ (decodePoolState sampleBuffer = decodePoolState (sampleBuffer.set 234 3) →
        sampleBuffer = sampleBuffer.set 234 3)) :=
  ⟨by decide, by decide,
    decode_roundtrip sampleBuffer (sampleBuffer.set 234 3) (by decide) (by decide)⟩

/-- C5: a buffer longer than 1544 bytes decodes to the same record as its first 1544
bytes, leaving the excess bytes unread; so its price is the price of the truncated buffer. -/
theorem decode_excess (L : Libm) (buf : List Byte) (hlen : 1544 < buf.length) :
    ∃ ps, decodePoolState buf = some (ps, buf.drop 1544)
      ∧ decodePoolState (buf.take 1544) = some (ps, [])
      ∧ (∀ ps' rest, decodePoolState (buf.take 1544) = some (ps', rest) →
          calculatePrice L ps' = calculatePrice L ps) := by
  have h2 : decodePoolState (buf.take 1544) = some (PoolState.ofBytes (buf.take 1544), []) := by
    rw [decode_long (by simp; omega), List.take_take, List.drop_of_length_le (by simp)]
    simp
  refine ⟨_, decode_long (by omega), h2, ?_⟩
  intro ps' rest h
  rw [h2] at h
  injection h with h
  have e : PoolState.ofBytes (buf.take 1544) = ps' := congrArg Prod.fst h
  rw [e]

theorem decode_excess_witness :
    1544 < (sampleBuffer ++ [7, 7, 7]).length
    ∧ ∃ ps, decodePoolState (sampleBuffer ++ [7, 7, 7])
          = some (ps, (sampleBuffer ++ [7, 7, 7]).drop 1544)
      ∧ decodePoolState ((sampleBuffer ++ [7, 7, 7]).take 1544) = some (ps, [])
      ∧ (∀ ps' rest, decodePoolState ((sampleBuffer ++ [7, 7, 7]).take 1544)
            = some (ps', rest) →
          calculatePrice Libm.none ps' = calculatePrice Libm.none ps) :=
  ⟨by decide, decode_excess Libm.none (sampleBuffer ++ [7, 7, 7]) (by decide)⟩

/-- C10: in the record decoded from a buffer of at least 1544 bytes, `MintDecimalsA` is byte
233, `MintDecimalsB` is byte 234, and `SqrtPriceX64.Lo`, `SqrtPriceX64.Hi` are the
little-endian values of bytes 253..260 and 261..268, whatever the buffer holds; the offsets
are the sums of the preceding widths; and two such buffers that agree on bytes 233, 234 and
253..268 give the same price. -/
theorem price_input_layout (L : Libm) (buf buf' : List Byte) (hlen : 1544 ≤ buf.length)
    (hlen' : 1544 ≤ buf'.length) :
    ∃ ps rest, decodePoolState buf = some (ps, rest)
      ∧ ps.MintDecimalsA = (buf.get ⟨233, by omega⟩).val
      ∧ ps.MintDecimalsB = (buf.get ⟨234, by omega⟩).val
      ∧ ps.SqrtPriceX64.Lo = leNat (slice buf 253 8)
      ∧ ps.SqrtPriceX64.Hi = leNat (slice buf 261 8)
      ∧ 8 + 1 + 7 * 32 = 233 ∧ 233 + 1 = 234 ∧ 234 + 1 + 2 + 16 = 253 ∧ 253 + 8 = 261
      ∧ 261 + 8 = 269
      ∧ (slice buf' 233 2 = slice buf 233 2 → slice buf' 253 16 = slice buf 253 16 →
          ∃ ps' rest', decodePoolState buf' = some (ps', rest')
            ∧ calculatePrice L ps' = calculatePrice L ps) := by
  obtain ⟨h1, h2, h3, h4⟩ := ofBytes_price_inputs buf
  refine ⟨_, _, decode_long hlen, ?_, ?_, h3, h4, by norm_num, by norm_num, by norm_num,
    by norm_num, by norm_num, ?_⟩
  · rw [h1, slice_one (by omega)]
    simp [leNat]
  · rw [h2, slice_one (by omega)]
    simp [leNat]
  · intro hd hs
    refine ⟨_, _, decode_long hlen', ?_⟩
    obtain ⟨g1, g2, g3, g4⟩ := ofBytes_price_inputs buf'
    have e1 : slice buf' 233 1 = slice buf 233 1 := by
      rw [← slice_slice_take buf' 233 2 1 (by norm_num),
        ← slice_slice_take buf 233 2 1 (by norm_num), hd]
    have e2 : slice buf' 234 1 = slice buf 234 1 := by
      have a := slice_slice_drop buf' 233 2 1
      have b := slice_slice_drop buf 233 2 1
      rw [hd, b] at a
      exact a.symm
    have e3 : slice buf' 253 8 = slice buf 253 8 := by
      rw [← slice_slice_take buf' 253 16 8 (by norm_num),
        ← slice_slice_take buf 253 16 8 (by norm_num), hs]
    have e4 : slice buf' 261 8 = slice buf 261 8 := by
      have a := slice_slice_drop buf' 253 16 8
      have b := slice_slice_drop buf 253 16 8
      rw [hs, b] at a
      exact a.symm
    rw [calculatePrice_eq_priceOf, calculatePrice_eq_priceOf, g1, g2, g3, g4, h1, h2, h3, h4,
      e1, e2, e3, e4]

theorem price_input_layout_witness :
    1544 ≤ sampleBuffer.length ∧ 1544 ≤ (sampleBuffer ++ [7, 7, 7]).length
    ∧ ∃ ps rest, decodePoolState sampleBuffer = some (ps, rest)
      ∧ ps.MintDecimalsA = 6
      ∧ ps.MintDecimalsB = 6
      ∧ ps.SqrtPriceX64.Lo = 0
      ∧ ps.SqrtPriceX64.Hi = 2 := by
  refine ⟨by decide, by decide, ?_⟩
  obtain ⟨ps, rest, h, a, b, c, d, _⟩ :=
    price_input_layout Libm.none sampleBuffer (sampleBuffer ++ [7, 7, 7]) (by decide) (by decide)
  exact ⟨ps, rest, h, by rw [a]; decide, by rw [b]; decide, by rw [c]; decide, by rw [d]; decide⟩

/-- C9: `getUpdate` returns either an error and no map, or a map and no error; the error
cases are exactly an address that does not parse, a failed fetch, and a failed decode;
otherwise the map has the single entry keyed by the configured value id, carrying that id,
the Raydium CLMM source id and `calculatePrice` of the decoded record; with an address that
does not parse no fetch is issued. -/
theorem getUpdate_outcome (w : World) (r : raydiumCLMMDataSource) :
    (((getUpdate w r).updates = none ∧ (getUpdate w r).err ≠ none)
      ∨ ((getUpdate w r).updates ≠ none ∧ (getUpdate w r).err = none))
    ∧ ((getUpdate w r).err ≠ none ↔
        (w.PublicKeyFromBase58 r.raydiumCLMMConfig.ContractAddress = none
        ∨ (∃ k, w.PublicKeyFromBase58 r.raydiumCLMMConfig.ContractAddress = some k
            ∧ w.GetAccountInfoWithOpts k = none)
        ∨ (∃ k data, w.PublicKeyFromBase58 r.raydiumCLMMConfig.ContractAddress = some k
            ∧ w.GetAccountInfoWithOpts k = some data ∧ decodePoolState data = none)))
    ∧ (∀ k data ps rest,
        w.PublicKeyFromBase58 r.raydiumCLMMConfig.ContractAddress = some k →
        w.GetAccountInfoWithOpts k = some data →
        decodePoolState data = some (ps, rest) →
        (getUpdate w r).err = none
        ∧ (getUpdate w r).updates = some [(r.valueId,
            { ValueId := r.valueId
              DataSourceId := w.RaydiumCLMMDataSourceId
              Time := w.Now
              Value := calculatePrice w.L ps })]
        ∧ (getUpdate w r).fetched = [k])
    ∧ (w.PublicKeyFromBase58 r.raydiumCLMMConfig.ContractAddress = none →
        (getUpdate w r).err = some UpdateError.failedToCreatePublicKey
        ∧ (getUpdate w r).updates = none
        ∧ (getUpdate w r).fetched = []) := by
  unfold getUpdate
  cases hk : w.PublicKeyFromBase58 r.raydiumCLMMConfig.ContractAddress with
  | none => simp
  | some k =>
    cases hf : w.GetAccountInfoWithOpts k with
    | none =>
      simp [hf]
      intro k1 d ps rest e hf1
      subst e
      rw [hf] at hf1
      exact absurd hf1 (by simp)
    | some data =>
      cases hd : decodePoolState data with
      | none =>
        simp [hf, hd]
        intro k1 d ps rest e hf1
        subst e
        rw [hf] at hf1
        injection hf1 with e2
        subst e2
        rw [hd]
        simp
      | some p =>
        obtain ⟨ps, rest⟩ := p
        simp [hf, hd, DataSourceUpdateMap.set]
        intro k1 d ps1 rest1 e hf1 hd1
        subst e
        rw [hf] at hf1
        injection hf1 with e2
        subst e2
        rw [hd] at hd1
        injection hd1 with e3
        have e4 : ps = ps1 := congrArg Prod.fst e3
        subst e4
        exact ⟨rfl, rfl⟩

theorem getUpdate_outcome_witness :
    (getUpdate (sampleWorld sampleBuffer) sampleSource).err = none
    ∧ (getUpdate (sampleWorld sampleBuffer) sampleSource).updates = some [("SOLUSD",
        { ValueId := "SOLUSD"
          DataSourceId := "RAYDIUM_CLMM"
          Time := 1700000000000
          Value := calculatePrice Libm.none samplePool })]
    ∧ (getUpdate (sampleWorld sampleBuffer) sampleSource).fetched = [List.replicate 32 1] :=
  (getUpdate_outcome (sampleWorld sampleBuffer) sampleSource).2.2.1
    (List.replicate 32 1) sampleBuffer samplePool [] rfl rfl (by decide)

theorem calculatePrice_formula_witness :
    samplePool.SqrtPriceX64.Hi < 2 ^ 64 ∧ samplePool.SqrtPriceX64.Lo < 2 ^ 64
    ∧ samplePool.MintDecimalsA < 256 ∧ samplePool.MintDecimalsB < 256
    ∧ (calculatePrice Libm.none samplePool =
      F64.mul
        (F64.mul
          (F64.div (F64.add (F64.mul (F64.ofNat samplePool.SqrtPriceX64.Hi) two64)
            (F64.ofNat samplePool.SqrtPriceX64.Lo)) two64)
          (F64.div (F64.add (F64.mul (F64.ofNat samplePool.SqrtPriceX64.Hi) two64)
            (F64.ofNat samplePool.SqrtPriceX64.Lo)) two64))
        (Pow Libm.none (F64.ofNat 10)
          (F64.ofInt ((samplePool.MintDecimalsA : Int) - (samplePool.MintDecimalsB : Int))))
    ∧ F64.toRat two64 = some ((2 : ℚ) ^ 64)
    ∧ F64.toRat (F64.ofInt ((samplePool.MintDecimalsA : Int) - (samplePool.MintDecimalsB : Int)))
        = some ((samplePool.MintDecimalsA : ℚ) - (samplePool.MintDecimalsB : ℚ))
    ∧ -255 ≤ (samplePool.MintDecimalsA : Int) - (samplePool.MintDecimalsB : Int)
    ∧ (samplePool.MintDecimalsA : Int) - (samplePool.MintDecimalsB : Int) ≤ 255
    ∧ ∃ r : ℚ, F64.toRat (calculatePrice Libm.none samplePool) = some r ∧ 0 ≤ r
        ∧ |r - (((samplePool.SqrtPriceX64.Hi : ℚ) * 2 ^ 64
              + (samplePool.SqrtPriceX64.Lo : ℚ)) / 2 ^ 64) ^ 2
              * (10 : ℚ) ^ ((samplePool.MintDecimalsA : Int) - (samplePool.MintDecimalsB : Int))|
          ≤ (((samplePool.SqrtPriceX64.Hi : ℚ) * 2 ^ 64
              + (samplePool.SqrtPriceX64.Lo : ℚ)) / 2 ^ 64) ^ 2
              * (10 : ℚ) ^ ((samplePool.MintDecimalsA : Int) - (samplePool.MintDecimalsB : Int))
              / 2 ^ 48) :=
  ⟨by decide, by decide, by decide, by decide,
    calculatePrice_formula Libm.none samplePool (by decide) (by decide) (by decide) (by decide)⟩

theorem calculatePrice_nonneg_witness :
    samplePool.MintDecimalsA < 256 ∧ samplePool.MintDecimalsB < 256
    ∧ (F64.isNaN (calculatePrice Libm.none samplePool) = false
      ∧ F64.signbit (calculatePrice Libm.none samplePool) = false
      ∧ F64.lt (calculatePrice Libm.none samplePool) (F64.ofNat 0) = false
      ∧ F64.isPosFinite (Pow Libm.none (F64.ofNat 10)
          (F64.sub (F64.ofNat samplePool.MintDecimalsA)
            (F64.ofNat samplePool.MintDecimalsB))) = true) :=
  ⟨by decide, by decide, calculatePrice_nonneg Libm.none samplePool (by decide) (by decide)⟩

theorem calculatePrice_reconstruction_witness :
    zeroPool.MintDecimalsA < 256 ∧ zeroPool.MintDecimalsB < 256
    ∧ calculatePrice Libm.none zeroPool = F64.zero
    ∧ sqrtPrice Libm.none { zeroPool with SqrtPriceX64 := { Lo := 0, Hi := 1 } } = F64.one
    ∧ calculatePrice Libm.none { zeroPool with SqrtPriceX64 := { Lo := 0, Hi := 1 } } = F64.one :=
  ⟨by decide, by decide,
    ((calculatePrice_reconstruction Libm.none zeroPool (by decide) (by decide)).1
      (by decide) (by decide)).1,
    ((calculatePrice_reconstruction Libm.none { zeroPool with SqrtPriceX64 := { Lo := 0, Hi := 1 } }
      (by decide) (by decide)).2 rfl rfl).1,
    (((calculatePrice_reconstruction Libm.none
      { zeroPool with SqrtPriceX64 := { Lo := 0, Hi := 1 } }
      (by decide) (by decide)).2 rfl rfl).2.2 (by decide)).1⟩

theorem decimal_scaling_witness :
    0 ≤ 254
    ∧ (calculatePrice Libm.none
        { samplePool with MintDecimalsA := 0 + 1, MintDecimalsB := 0 } =
      F64.mul (calculatePrice Libm.none
        { samplePool with MintDecimalsA := 0, MintDecimalsB := 0 }) (F64.ofNat 10)
    ∧ calculatePrice Libm.none
        { samplePool with MintDecimalsA := 0, MintDecimalsB := 0 + 1 } =
      F64.mul (calculatePrice Libm.none
        { samplePool with MintDecimalsA := 0, MintDecimalsB := 0 })
        (F64.div (F64.ofNat 1) (F64.ofNat 10))
    ∧ Pow Libm.none (F64.ofNat 10) (F64.ofInt (-1)) = F64.div (F64.ofNat 1) (F64.ofNat 10)) :=
  ⟨by decide, decimal_scaling Libm.none samplePool 0 (by decide)⟩

end

end Raydium
